import Mathlib

/-!
Verification development for the basilisk-core memory subsystem
(src/computer_use_demo/memory/core.py, storage.py, embeddings.py).

The Python code is shallowly embedded: dataclasses become structures,
Python dicts become insertion-ordered association lists with the update
semantics of CPython dicts, float arithmetic is modelled over exact
rationals, and the JSON (de)serialization used by the storage layer is
modelled by an executable encoder and parser over an inductive value
domain.  Stateful methods of MemorySystem become pure functions from a
state record to a state record.
-/

attribute [local semireducible] Rat.add Rat.mul Rat.sub

namespace BasiliskMemory

/-! ### Python string comparison

CPython compares strings lexicographically by code point.  Lean's
built-in String order does not reduce in the kernel, so the comparison
is defined directly on the character lists. -/

def charListLt : List Char → List Char → Bool
  | [], [] => false
  | [], _ :: _ => true
  | _ :: _, [] => false
  | a :: as, b :: bs =>
    if a < b then true else if b < a then false else charListLt as bs

/-- Python string less-than (lexicographic by code point). -/
def pyStrLt (a b : String) : Bool := charListLt a.data b.data

/-- Python string less-or-equal. -/
def pyStrLe (a b : String) : Bool := !(pyStrLt b a)

theorem charListLt_irrefl (l : List Char) : charListLt l l = false := by
  induction l with
  | nil => rfl
  | cons a as ih => simp [charListLt, ih]

theorem charListLt_asymm {a b : List Char} (h : charListLt a b = true) :
    charListLt b a = false := by
  induction a generalizing b with
  | nil =>
    cases b with
    | nil => simp [charListLt] at h
    | cons y ys => simp [charListLt]
  | cons x xs ih =>
    cases b with
    | nil => simp [charListLt] at h
    | cons y ys =>
      by_cases hxy : x < y
      · have hyx : ¬ y < x := asymm hxy
        simp [charListLt, hxy, hyx, asymm hxy]
      · by_cases hyx : y < x
        · simp [charListLt, hxy, hyx] at h
        · have := ih (b := ys)
          simp [charListLt, hxy, hyx] at h ⊢
          exact this h

theorem charListLt_trans {a b c : List Char}
    (hab : charListLt a b = true) (hbc : charListLt b c = true) :
    charListLt a c = true := by
  induction a generalizing b c with
  | nil =>
    cases c with
    | nil =>
      cases b with
      | nil => simp [charListLt] at hab
      | cons y ys => simp [charListLt] at hbc
    | cons z zs => simp [charListLt]
  | cons x xs ih =>
    cases b with
    | nil => simp [charListLt] at hab
    | cons y ys =>
      cases c with
      | nil => simp [charListLt] at hbc
      | cons z zs =>
        by_cases hxy : x < y <;> by_cases hyz : y < z
        · have hxz : x < z := lt_trans hxy hyz
          simp [charListLt, hxz]
        · by_cases hzy : z < y
          · simp [charListLt, hyz, hzy] at hbc
          · have hyez : y = z := le_antisymm (not_lt.mp hzy) (not_lt.mp hyz)
            subst hyez
            simp [charListLt, hxy]
        · by_cases hyx : y < x
          · simp [charListLt, hxy, hyx] at hab
          · have hxey : x = y := le_antisymm (not_lt.mp hyx) (not_lt.mp hxy)
            subst hxey
            simp [charListLt, lt_irrefl, hyz]
        · by_cases hyx : y < x
          · simp [charListLt, hxy, hyx] at hab
          · by_cases hzy : z < y
            · simp [charListLt, hyz, hzy] at hbc
            · have hxey : x = y := le_antisymm (not_lt.mp hyx) (not_lt.mp hxy)
              have hyez : y = z := le_antisymm (not_lt.mp hzy) (not_lt.mp hyz)
              subst hxey; subst hyez
              simp [charListLt, lt_irrefl] at hab hbc ⊢
              exact ih hab hbc

theorem charListLt_total (a b : List Char) :
    charListLt a b = false → charListLt b a = false → a = b := by
  induction a generalizing b with
  | nil =>
    cases b with
    | nil => intro _ _; rfl
    | cons y ys => intro h _; simp [charListLt] at h
  | cons x xs ih =>
    cases b with
    | nil => intro _ h; simp [charListLt] at h
    | cons y ys =>
      intro hab hba
      by_cases hxy : x < y
      · simp [charListLt, hxy] at hab
      · by_cases hyx : y < x
        · simp [charListLt, hyx] at hba
        · have hxey : x = y := le_antisymm (not_lt.mp hyx) (not_lt.mp hxy)
          subst hxey
          simp [charListLt, lt_irrefl] at hab hba
          exact congrArg (x :: ·) (ih ys hab hba)

theorem pyStrLt_irrefl (s : String) : pyStrLt s s = false :=
  charListLt_irrefl s.data

theorem pyStrLt_asymm {a b : String} (h : pyStrLt a b = true) :
    pyStrLt b a = false := charListLt_asymm h

theorem pyStrLt_trans {a b c : String}
    (hab : pyStrLt a b = true) (hbc : pyStrLt b c = true) :
    pyStrLt a c = true := charListLt_trans hab hbc

theorem pyStrLt_total (a b : String) :
    pyStrLt a b = false → pyStrLt b a = false → a = b := by
  intro h1 h2
  cases a; cases b
  exact congrArg String.mk (charListLt_total _ _ h1 h2)

/-! ### Python dicts as insertion-ordered association lists

CPython dicts preserve insertion order; assigning to an existing key
updates the value in place (the key keeps its position), assigning to a
fresh key appends it at the end. -/

def alookup {α : Type} (k : String) : List (String × α) → Option α
  | [] => none
  | (k1, v) :: rest => if k1 = k then some v else alookup k rest

def dictSet {α : Type} (k : String) (v : α) : List (String × α) → List (String × α)
  | [] => [(k, v)]
  | (k1, v1) :: rest =>
    if k1 = k then (k, v) :: rest else (k1, v1) :: dictSet k v rest

theorem alookup_dictSet_self {α : Type} (k : String) (v : α)
    (l : List (String × α)) : alookup k (dictSet k v l) = some v := by
  induction l with
  | nil => simp [dictSet, alookup]
  | cons p rest ih =>
    obtain ⟨k1, v1⟩ := p
    by_cases h : k1 = k
    · simp [dictSet, h, alookup]
    · simp [dictSet, h, alookup, ih]

theorem alookup_dictSet_other {α : Type} {k k2 : String} (v : α)
    (l : List (String × α)) (h : k ≠ k2) :
    alookup k2 (dictSet k v l) = alookup k2 l := by
  induction l with
  | nil => simp [dictSet, alookup, h]
  | cons p rest ih =>
    obtain ⟨k1, v1⟩ := p
    by_cases h1 : k1 = k
    · subst h1; simp [dictSet, alookup, h]
    · by_cases h2 : k1 = k2
      · subst h2; simp [dictSet, h1, alookup, Ne.symm h]
      · simp [dictSet, h1, alookup, h2, ih]

theorem dictSet_keys {α : Type} (k : String) (v : α) (l : List (String × α))
    (h : (alookup k l).isSome) : (dictSet k v l).map Prod.fst = l.map Prod.fst := by
  induction l with
  | nil => simp [alookup] at h
  | cons p rest ih =>
    obtain ⟨k1, v1⟩ := p
    by_cases h1 : k1 = k
    · simp [dictSet, h1]
    · simp [alookup, h1] at h
      simp [dictSet, h1, ih h]

/-! ### The Python value domain

Payload fields of an Experience (content, metadata, context) are
duck-typed Python objects.  The model covers None, bool, int, float,
str, list and dict.  Python floats are the dyadic rationals they denote
exactly (IEEE-754 binary64 values are rationals with a power-of-two
denominator; NaN and infinities are outside the model).  Dict keys may
be strings or ints, as in Python; json.dumps converts int keys to
decimal strings.  The nesting is expressed with a mutual inductive so
that decidable equality and structural recursion reduce in the
kernel. -/

mutual
inductive PyKey where
  | str (s : String)
  | int (n : Int)
deriving DecidableEq
inductive PyValue where
  | null
  | bool (b : Bool)
  | int (n : Int)
  | float (q : Rat)
  | str (s : String)
  | list (xs : PyList)
  | dict (kvs : PyDict)
deriving DecidableEq
inductive PyList where
  | nil
  | cons (v : PyValue) (vs : PyList)
deriving DecidableEq
inductive PyDict where
  | nil
  | cons (k : PyKey) (v : PyValue) (kvs : PyDict)
deriving DecidableEq
end

/-! ### Decimal rendering of numbers -/

/-- Character for a decimal digit d (d < 10). -/
def digChar (d : Nat) : Char := Char.ofNat (48 + d)

/-- Numeric value of a decimal digit character. -/
def digVal (c : Char) : Nat := c.toNat - 48

/-- Test for a decimal digit character. -/
def isDig (c : Char) : Bool := 48 ≤ c.toNat && c.toNat ≤ 57

/-- Little-endian digit characters of n, with fuel (fuel ≥ n suffices). -/
def natDigsAux (fuel : Nat) (n : Nat) : List Char :=
  match fuel with
  | 0 => []
  | f + 1 => if n = 0 then [] else digChar (n % 10) :: natDigsAux f (n / 10)

/-- Decimal rendering of a natural number, as CPython's int repr. -/
def renderNat (n : Nat) : List Char :=
  if n = 0 then ['0'] else (natDigsAux n n).reverse

/-- Decimal rendering of an integer, as CPython's int repr. -/
def renderInt (i : Int) : List Char :=
  if i < 0 then '-' :: renderNat i.natAbs else renderNat i.natAbs

/-- Value of a run of decimal digit characters. -/
def digsVal (cs : List Char) : Nat :=
  cs.foldl (fun a c => a * 10 + digVal c) 0

/-- Smallest k with den dividing 10 ^ k, if one exists up to den.  For
the denominator of a Python float (a power of two) such a k always
exists, since 2 ^ e divides 10 ^ e. -/
def decExpFind (den : Nat) : Option Nat :=
  (List.range (den + 1)).find? (fun k => 10 ^ k % den == 0)

/-- A rational with a terminating decimal expansion, in particular any
rational denoted by an IEEE-754 float. -/
def isDecimalRat (q : Rat) : Bool := (decExpFind q.den).isSome

/-- Decimal rendering of a Python float.  CPython's float repr prints
the shortest decimal string that parses back to the same float; the
model prints the exact (terminating) decimal expansion instead, which
also parses back to exactly the same rational, so the dumps-then-loads
composite agrees with CPython.  Rationals outside the float domain
(no terminating decimal expansion) render as a deliberately unparseable
token. -/
def renderFloat (q : Rat) : List Char :=
  match decExpFind q.den with
  | none => '?' :: (renderInt q.num ++ '/' :: renderNat q.den)
  | some k =>
    let mag := q.num.natAbs * (10 ^ k / q.den)
    let sign : List Char := if q.num < 0 then ['-'] else []
    if k = 0 then sign ++ renderNat mag ++ ['.', '0']
    else
      let ds := renderNat mag
      let ds := if ds.length ≤ k then List.replicate (k + 1 - ds.length) '0' ++ ds else ds
      sign ++ (ds.take (ds.length - k) ++ '.' :: ds.drop (ds.length - k))

/-! ### JSON string escaping

json.dumps with its defaults (ensure_ascii=True) escapes the quote, the
backslash, control characters (with short escapes for backspace, tab,
newline, form feed, carriage return) and every non-ASCII character;
code points beyond the basic multilingual plane become surrogate
pairs.  json.loads reverses all of these exactly. -/

/-- Lowercase hex digit character for d < 16. -/
def hexDigChar (d : Nat) : Char :=
  if d < 10 then Char.ofNat (48 + d) else Char.ofNat (87 + d)

/-- Four-character lowercase hex rendering of n < 65536. -/
def hex4 (n : Nat) : List Char :=
  [hexDigChar (n / 4096 % 16), hexDigChar (n / 256 % 16),
   hexDigChar (n / 16 % 16), hexDigChar (n % 16)]

/-- Escape one character as json.dumps (ensure_ascii=True) does. -/
def escChar (c : Char) : List Char :=
  if c = '"' then ['\\', '"']
  else if c = '\\' then ['\\', '\\']
  else if c = Char.ofNat 8 then ['\\', 'b']
  else if c = Char.ofNat 9 then ['\\', 't']
  else if c = Char.ofNat 10 then ['\\', 'n']
  else if c = Char.ofNat 12 then ['\\', 'f']
  else if c = Char.ofNat 13 then ['\\', 'r']
  else if c.toNat < 32 ∨ 126 < c.toNat then
    if c.toNat < 65536 then '\\' :: 'u' :: hex4 c.toNat
    else
      '\\' :: 'u' :: hex4 (55296 + (c.toNat - 65536) / 1024) ++
        '\\' :: 'u' :: hex4 (56320 + (c.toNat - 65536) % 1024)
  else [c]

/-- Escaped body of a JSON string literal, including the closing quote. -/
def escBody (l : List Char) : List Char :=
  l.foldr (fun c acc => escChar c ++ acc) ['"']

/-- Render a Python str as a JSON string literal. -/
def renderStr (s : String) : List Char :=
  '"' :: escBody s.data

/-- Render a dict key as json.dumps does: string keys as JSON strings,
int keys converted to their decimal repr in quotes. -/
def renderKey : PyKey → List Char
  | .str s => renderStr s
  | .int n => '"' :: (renderInt n ++ ['"'])

/-! ### json.dumps

The encoder follows json.dumps with default arguments, except that the
item and key separators are rendered without their trailing space
(json.loads skips that whitespace, so the dumps-then-loads composite is
unchanged). -/

mutual
def dumpsV : PyValue → List Char
  | .null => "null".data
  | .bool true => "true".data
  | .bool false => "false".data
  | .int n => renderInt n
  | .float q => renderFloat q
  | .str s => renderStr s
  | .list xs => '[' :: (dumpsL xs ++ [']'])
  | .dict kvs => '\x7b' :: (dumpsD kvs ++ ['\x7d'])
def dumpsL : PyList → List Char
  | .nil => []
  | .cons v .nil => dumpsV v
  | .cons v (.cons w ws) => dumpsV v ++ ',' :: dumpsL (.cons w ws)
def dumpsD : PyDict → List Char
  | .nil => []
  | .cons k v .nil => renderKey k ++ ':' :: dumpsV v
  | .cons k v (.cons k2 w ws) =>
    renderKey k ++ ':' :: dumpsV v ++ ',' :: dumpsD (.cons k2 w ws)
end

/-- json.dumps of a Python value, as a Lean string. -/
def dumps (v : PyValue) : String := String.mk (dumpsV v)

/-! ### json.loads

A recursive-descent reader for the documents json.dumps emits.  It is
total (fuel-indexed), rejects malformed input with none, decodes every
escape json.dumps produces (including surrogate pairs) and parses
numbers exactly.  Whitespace skipping and the exponent form of numbers
are omitted: the encoder above never emits them, and json.loads treats
them exactly as their canonical equivalents, so the dumps-then-loads
composite is unaffected.  Objects are assembled with the dict-update
semantics of CPython (duplicate keys: first position, last value
wins). -/

/-- Value of a hex digit character, lowercase or uppercase. -/
def hexVal (c : Char) : Option Nat :=
  if 48 ≤ c.toNat ∧ c.toNat ≤ 57 then some (c.toNat - 48)
  else if 97 ≤ c.toNat ∧ c.toNat ≤ 102 then some (c.toNat - 87)
  else if 65 ≤ c.toNat ∧ c.toNat ≤ 70 then some (c.toNat - 55)
  else none

/-- Value of four hex digit characters. -/
def hex4Val (h1 h2 h3 h4 : Char) : Option Nat :=
  match hexVal h1, hexVal h2, hexVal h3, hexVal h4 with
  | some a, some b, some c, some d => some (((a * 16 + b) * 16 + c) * 16 + d)
  | _, _, _, _ => none

/-- Decoded character for a one-letter escape (json.loads accepts
exactly these besides the hex form). -/
def escCode (e : Char) : Option Char :=
  if e = '"' then some '"'
  else if e = '\\' then some '\\'
  else if e = '/' then some '/'
  else if e = 'b' then some (Char.ofNat 8)
  else if e = 't' then some (Char.ofNat 9)
  else if e = 'n' then some (Char.ofNat 10)
  else if e = 'f' then some (Char.ofNat 12)
  else if e = 'r' then some (Char.ofNat 13)
  else none

/-- Decode the low half of a surrogate pair. -/
def uDecodeLo (n : Nat) : Option Nat → List Char → Option (Char × List Char)
  | none, _ => none
  | some m, r3 =>
    if 56320 ≤ m ∧ m < 57344 then
      some (Char.ofNat (65536 + (n - 55296) * 1024 + (m - 56320)), r3)
    else none

/-- After a high surrogate, a second hex escape must follow. -/
def uDecodePair (n : Nat) : List Char → Option (Char × List Char)
  | b1 :: b2 :: g1 :: g2 :: g3 :: g4 :: r3 =>
    if b1 = '\\' ∧ b2 = 'u' then uDecodeLo n (hex4Val g1 g2 g3 g4) r3 else none
  | _ => none

/-- Interpret the value of one hex escape: a high surrogate opens a
pair, a lone low surrogate is rejected, anything else is a scalar. -/
def uDecode1 (n : Nat) (r2 : List Char) : Option (Char × List Char) :=
  if 55296 ≤ n ∧ n < 56320 then uDecodePair n r2
  else if 56320 ≤ n ∧ n < 57344 then none
  else some (Char.ofNat n, r2)

/-- Decode a hex escape (after the backslash-u). -/
def uDecode : List Char → Option (Char × List Char)
  | x1 :: x2 :: x3 :: x4 :: r2 => (hex4Val x1 x2 x3 x4).bind (fun n => uDecode1 n r2)
  | _ => none

/-- Decode one escape sequence (after the backslash): the decoded
character and the remaining input. -/
def escDecode : List Char → Option (Char × List Char)
  | [] => none
  | e :: rest =>
    if e = 'u' then uDecode rest
    else (escCode e).map (fun c => (c, rest))

/-- Body of a JSON string literal after the opening quote; returns the
decoded characters and the input following the closing quote.  The
fuel (any bound on the number of decoded characters, for instance the
input length) makes the recursion structural. -/
def parseStrAux : Nat → List Char → Option (List Char × List Char)
  | 0, _ => none
  | _ + 1, [] => none
  | f + 1, c :: rest =>
    if c = '"' then some ([], rest)
    else if c = '\\' then
      (escDecode rest).bind
        (fun p => (parseStrAux f p.2).map (fun q => (p.1 :: q.1, q.2)))
    else (parseStrAux f rest).map (fun q => (c :: q.1, q.2))

/-- Longest digit run at the front of the input. -/
def spanDigs : List Char → List Char × List Char
  | [] => ([], [])
  | c :: rest =>
    if isDig c then
      let p := spanDigs rest
      (c :: p.1, p.2)
    else ([], c :: rest)

/-- Parse a JSON number (no exponent form; see the loads comment):
a digit run is an int, a digit run with a fractional part is a float
with the exact rational value of the decimal literal, matching what
json.loads produces when the text came from json.dumps. -/
def parseNum (cs : List Char) : Option (PyValue × List Char) :=
  let neg : Bool := cs.head? = some '-'
  let cs1 := if neg then cs.tail else cs
  let p1 := spanDigs cs1
  if p1.1 = [] then none
  else if p1.2.head? = some '.' then
    let p2 := spanDigs p1.2.tail
    if p2.1 = [] then none
    else
      let mag : Int := (digsVal p1.1 * 10 ^ p2.1.length + digsVal p2.1 : Nat)
      some (.float (mkRat (if neg then -mag else mag) (10 ^ p2.1.length)), p2.2)
  else some (.int (if neg then -(digsVal p1.1 : Int) else (digsVal p1.1 : Int)), p1.2)

/-- Consume an expected literal token. -/
def eatTok : List Char → List Char → Option (List Char)
  | [], cs => some cs
  | _ :: _, [] => none
  | t :: ts, c :: cs => if c = t then eatTok ts cs else none

/-- CPython dict update: existing key keeps its position and takes the
new value, a fresh key is appended. -/
def pyDictSet : PyDict → PyKey → PyValue → PyDict
  | .nil, k, v => .cons k v .nil
  | .cons k1 v1 rest, k, v =>
    if k1 = k then .cons k v rest else .cons k1 v1 (pyDictSet rest k v)

/-- Build a dict from pairs in textual order, as dict insertion does. -/
def pyDictBuild (acc : PyDict) : PyDict → PyDict
  | .nil => acc
  | .cons k v rest => pyDictBuild (pyDictSet acc k v) rest

mutual
/-- Parse one JSON value. -/
def parseVal : Nat → List Char → Option (PyValue × List Char)
  | 0, _ => none
  | f + 1, cs =>
    match cs with
    | [] => none
    | c :: rest =>
      if c = '"' then
        (parseStrAux (rest.length + 1) rest).map (fun p => (.str (String.mk p.1), p.2))
      else if c = '[' then
        if rest.head? = some ']' then some (.list .nil, rest.tail)
        else (parseElems f rest).map (fun p => (.list p.1, p.2))
      else if c = '\x7b' then
        if rest.head? = some '\x7d' then some (.dict .nil, rest.tail)
        else (parseEntries f rest).map (fun p => (.dict (pyDictBuild .nil p.1), p.2))
      else if c = 'n' then (eatTok ['u', 'l', 'l'] rest).map (fun r => (.null, r))
      else if c = 't' then (eatTok ['r', 'u', 'e'] rest).map (fun r => (.bool true, r))
      else if c = 'f' then (eatTok ['a', 'l', 's', 'e'] rest).map (fun r => (.bool false, r))
      else parseNum (c :: rest)
/-- Parse the elements of a non-empty JSON array (after the bracket). -/
def parseElems : Nat → List Char → Option (PyList × List Char)
  | 0, _ => none
  | f + 1, cs =>
    (parseVal f cs).bind (fun p =>
      if p.2.head? = some ',' then
        (parseElems f p.2.tail).map (fun q => (.cons p.1 q.1, q.2))
      else if p.2.head? = some ']' then some (.cons p.1 .nil, p.2.tail)
      else none)
/-- Parse the entries of a non-empty JSON object (after the brace),
in textual order. -/
def parseEntries : Nat → List Char → Option (PyDict × List Char)
  | 0, _ => none
  | f + 1, cs =>
    match cs with
    | [] => none
    | c :: rest =>
      if c = '"' then
        (parseStrAux (rest.length + 1) rest).bind (fun ps =>
          if ps.2.head? = some ':' then
            (parseVal f ps.2.tail).bind (fun p =>
              if p.2.head? = some ',' then
                (parseEntries f p.2.tail).map
                  (fun q => (.cons (.str (String.mk ps.1)) p.1 q.1, q.2))
              else if p.2.head? = some '\x7d' then
                some (.cons (.str (String.mk ps.1)) p.1 .nil, p.2.tail)
              else none)
          else none)
      else none
end

/-- json.loads of a complete document. -/
def loads (s : String) : Option PyValue :=
  match parseVal (s.data.length + 1) s.data with
  | some (v, []) => some v
  | _ => none

/-! ### Character and digit lemmas for the round trip -/

theorem toNat_ofNat_valid {m : Nat} (h : Nat.isValidChar m) :
    (Char.ofNat m).toNat = m := by
  rw [Char.ofNat, dif_pos h]
  rfl

theorem valid_of_lt_surr {m : Nat} (h : m < 55296) : Nat.isValidChar m := Or.inl h

theorem digChar_toNat {d : Nat} (h : d < 10) : (digChar d).toNat = 48 + d :=
  toNat_ofNat_valid (valid_of_lt_surr (by omega))

theorem digVal_digChar {d : Nat} (h : d < 10) : digVal (digChar d) = d := by
  simp [digVal, digChar_toNat h]

theorem isDig_digChar {d : Nat} (h : d < 10) : isDig (digChar d) = true := by
  simp [isDig, digChar_toNat h]
  omega

theorem isDig_toNat {c : Char} (h : isDig c = true) :
    48 ≤ c.toNat ∧ c.toNat ≤ 57 := by
  simpa [isDig] using h

theorem natDigsAux_digs {f n : Nat} {c : Char} (h : c ∈ natDigsAux f n) :
    isDig c = true := by
  induction f generalizing n with
  | zero => simp [natDigsAux] at h
  | succ f ih =>
    by_cases hn : n = 0
    · simp [natDigsAux, hn] at h
    · rw [natDigsAux, if_neg hn] at h
      rcases List.mem_cons.mp h with h1 | h1
      · subst h1; exact isDig_digChar (Nat.mod_lt n (by omega))
      · exact ih h1

theorem renderNat_digs {n : Nat} {c : Char} (h : c ∈ renderNat n) : isDig c = true := by
  by_cases hn : n = 0
  · simp [renderNat, hn] at h
    subst h; decide
  · rw [renderNat, if_neg hn] at h
    exact natDigsAux_digs (List.mem_reverse.mp h)

theorem renderNat_ne_nil (n : Nat) : renderNat n ≠ [] := by
  by_cases hn : n = 0
  · simp [renderNat, hn]
  · rw [renderNat, if_neg hn]
    obtain ⟨f, hf⟩ : ∃ f, n = f + 1 := ⟨n - 1, by omega⟩
    rw [hf, natDigsAux, if_neg (by omega : ¬ f + 1 = 0)]
    simp

theorem renderNat_head (n : Nat) :
    ∃ d ds, renderNat n = d :: ds ∧ isDig d = true := by
  rcases hr : renderNat n with _ | ⟨d, ds⟩
  · exact absurd hr (renderNat_ne_nil n)
  · exact ⟨d, ds, rfl, renderNat_digs (hr ▸ List.mem_cons_self d ds)⟩

theorem digsVal_from (l : List Char) (acc : Nat) :
    l.foldl (fun a c => a * 10 + digVal c) acc = acc * 10 ^ l.length + digsVal l := by
  induction l generalizing acc with
  | nil => simp [digsVal]
  | cons c l ih =>
    simp only [List.foldl_cons, List.length_cons, digsVal]
    rw [ih (acc * 10 + digVal c), ih (0 * 10 + digVal c)]
    ring

theorem digsVal_append (a b : List Char) :
    digsVal (a ++ b) = digsVal a * 10 ^ b.length + digsVal b := by
  simp only [digsVal, List.foldl_append]
  rw [digsVal_from b (a.foldl (fun a c => a * 10 + digVal c) 0)]
  rfl

theorem natDigsAux_val {f n : Nat} (h : n ≤ f) :
    digsVal (natDigsAux f n).reverse = n := by
  induction f generalizing n with
  | zero =>
    have : n = 0 := by omega
    simp [natDigsAux, this, digsVal]
  | succ f ih =>
    by_cases hn : n = 0
    · simp [natDigsAux, hn, digsVal]
    · rw [natDigsAux, if_neg hn]
      simp only [List.reverse_cons]
      rw [digsVal_append]
      have hrec : digsVal (natDigsAux f (n / 10)).reverse = n / 10 :=
        ih (by omega)
      rw [hrec]
      have : digsVal [digChar (n % 10)] = n % 10 := by
        simp [digsVal, digVal_digChar (Nat.mod_lt n (by omega))]
      rw [this]
      simp
      omega

theorem renderNat_val (n : Nat) : digsVal (renderNat n) = n := by
  by_cases hn : n = 0
  · simp [renderNat, hn, digsVal, digVal]
  · rw [renderNat, if_neg hn]
    exact natDigsAux_val (le_refl n)

/-- Boundary condition for the text following a rendered number: it
must not begin with a digit or a decimal point (every continuation
produced by the encoder — a comma, a closing bracket or brace, or the
end of the document — satisfies it). -/
def numBoundary : List Char → Prop
  | [] => True
  | c :: _ => isDig c = false ∧ c ≠ '.'

theorem spanDigs_append {ds rest : List Char}
    (hds : ∀ c ∈ ds, isDig c = true)
    (hrest : rest = [] ∨ isDig (rest.headD '0') = false) :
    spanDigs (ds ++ rest) = (ds, rest) := by
  induction ds with
  | nil =>
    rcases rest with _ | ⟨c, r⟩
    · simp [spanDigs]
    · rcases hrest with h | h
      · simp at h
      · simp only [List.headD_cons] at h
        simp [spanDigs, h]
  | cons d ds ih =>
    have hd : isDig d = true := hds d (List.mem_cons_self d ds)
    simp only [List.cons_append, spanDigs, hd, if_true]
    simp only [List.append_eq]
    rw [ih (fun c hc => hds c (List.mem_cons_of_mem d hc))]

theorem numBoundary_head {c : Char} {r : List Char} (h : numBoundary (c :: r)) :
    isDig c = false ∧ c ≠ '.' := h

theorem numBoundary_span {rest : List Char} (h : numBoundary rest) :
    rest = [] ∨ isDig (rest.headD '0') = false := by
  rcases rest with _ | ⟨c, r⟩
  · exact Or.inl rfl
  · exact Or.inr (numBoundary_head h).1

theorem numBoundary_not_dot {rest : List Char} (h : numBoundary rest) :
    ¬ rest.head? = some '.' := by
  rcases rest with _ | ⟨c, r⟩
  · simp
  · simp only [List.head?_cons, Option.some.injEq]
    exact (numBoundary_head h).2

theorem parseNum_int (i : Int) (rest : List Char) (hrest : numBoundary rest) :
    parseNum (renderInt i ++ rest) = some (.int i, rest) := by
  have hdigs : ∀ c ∈ renderNat i.natAbs, isDig c = true := fun _ hc => renderNat_digs hc
  have hspan := spanDigs_append hdigs (numBoundary_span hrest)
  obtain ⟨d, ds, hds, hd⟩ := renderNat_head i.natAbs
  have hdne : d ≠ '-' := fun hc => by rw [hc] at hd; exact absurd hd (by decide)
  have hdot := numBoundary_not_dot hrest
  have hnn := renderNat_ne_nil i.natAbs
  by_cases hneg : i < 0
  · rw [renderInt, if_pos hneg, List.cons_append, parseNum]
    simp only [List.head?_cons, Option.some.injEq, List.tail_cons, decide_eq_true_eq,
      if_true, reduceIte]
    rw [hspan]
    simp only [hnn, if_false, if_neg hdot, renderNat_val, Option.some.injEq,
      PyValue.int.injEq, Prod.mk.injEq]
    exact ⟨by omega, trivial⟩
  · rw [renderInt, if_neg hneg, parseNum]
    rw [hds] at hspan ⊢
    rw [List.cons_append]
    simp only [List.head?_cons, Option.some.injEq, decide_eq_true_eq, hdne,
      if_false, reduceIte]
    rw [← List.cons_append, hspan]
    simp only [← hds, hnn, if_false, if_neg hdot, renderNat_val, Option.some.injEq,
      PyValue.int.injEq, Prod.mk.injEq, reduceCtorEq]
    exact ⟨by omega, trivial⟩

theorem mkRat_mul_eq (q : Rat) (c : Nat) (hc : c ≠ 0) :
    mkRat (q.num * (c : Int)) (q.den * c) = q := by
  rw [Rat.mkRat_eq_div]
  push_cast
  rw [mul_div_mul_right _ _ (by exact_mod_cast hc : ((c : Rat)) ≠ 0)]
  exact Rat.num_div_den q

theorem digsVal_zeros (m : Nat) (l : List Char) :
    digsVal (List.replicate m '0' ++ l) = digsVal l := by
  induction m with
  | zero => simp
  | succ m ih =>
    rw [List.replicate_succ, List.cons_append]
    show List.foldl _ (0 * 10 + digVal '0') _ = _
    have h0 : 0 * 10 + digVal '0' = 0 := by decide
    rw [h0]
    exact ih

theorem parseNum_decimal (neg : Prop) [Decidable neg] (ipart fpart rest : List Char)
    (hi : ipart ≠ []) (hf : fpart ≠ [])
    (hid : ∀ c ∈ ipart, isDig c = true) (hfd : ∀ c ∈ fpart, isDig c = true)
    (hrest : numBoundary rest) :
    parseNum ((if neg then ['-'] else []) ++ ipart ++ '.' :: (fpart ++ rest)) =
      some (.float (mkRat
        (if neg then -((digsVal ipart * 10 ^ fpart.length + digsVal fpart : Nat) : Int)
          else ((digsVal ipart * 10 ^ fpart.length + digsVal fpart : Nat) : Int))
        (10 ^ fpart.length)), rest) := by
  obtain ⟨d, ds, hds⟩ : ∃ d ds, ipart = d :: ds := by
    rcases ipart with _ | ⟨d, ds⟩
    · exact absurd rfl hi
    · exact ⟨d, ds, rfl⟩
  have hd : isDig d = true := hid d (hds ▸ List.mem_cons_self d ds)
  have hdne : d ≠ '-' := fun hc => by rw [hc] at hd; exact absurd hd (by decide)
  have hspan1 : spanDigs (ipart ++ '.' :: (fpart ++ rest)) =
      (ipart, '.' :: (fpart ++ rest)) :=
    spanDigs_append hid (Or.inr (by rw [List.headD_cons]; decide))
  have hspan2 : spanDigs (fpart ++ rest) = (fpart, rest) :=
    spanDigs_append hfd (numBoundary_span hrest)
  by_cases hn : neg
  · rw [if_pos hn, parseNum]
    simp only [List.cons_append, List.nil_append, List.head?_cons, Option.some.injEq,
      List.tail_cons, decide_eq_true_eq, if_true, reduceIte]
    rw [hspan1]
    simp only [hi, if_false, List.head?_cons, Option.some.injEq, List.tail_cons,
      if_true, reduceIte, hspan2]
    simp only [if_pos hn]
    rw [if_neg hf]
  · rw [if_neg hn, List.nil_append, parseNum]
    rw [hds]
    simp only [List.cons_append, List.head?_cons, Option.some.injEq,
      decide_eq_true_eq, hdne, if_false, reduceIte]
    rw [← hds, ← List.cons_append, ← hds, hspan1]
    simp only [hi, if_false, List.head?_cons, Option.some.injEq, List.tail_cons,
      if_true, reduceIte, hspan2]
    simp only [if_neg hn]
    rw [if_neg hf]

theorem mkRat_signed (q : Rat) (cc m D : Nat) (hcc : cc ≠ 0)
    (hD : q.den * cc = D) (hm : m = q.num.natAbs * cc) :
    mkRat (if q.num < 0 then -(m : Int) else (m : Int)) (D : Nat) = q := by
  have hX : (if q.num < 0 then -(m : Int) else (m : Int)) = q.num * cc := by
    subst hm
    by_cases hn : q.num < 0
    · simp only [if_pos hn]
      push_cast
      rw [abs_of_neg hn]
      ring
    · simp only [if_neg hn]
      push_cast
      rw [abs_of_nonneg (not_lt.mp hn)]
  rw [hX, ← hD]
  exact mkRat_mul_eq q cc hcc

theorem parseNum_float (q : Rat) (rest : List Char)
    (hq : isDecimalRat q = true) (hrest : numBoundary rest) :
    parseNum (renderFloat q ++ rest) = some (.float q, rest) := by
  obtain ⟨k, hfind⟩ := Option.isSome_iff_exists.mp hq
  have hkdvd : q.den ∣ 10 ^ k := by
    have := List.find?_some hfind
    exact Nat.dvd_iff_mod_eq_zero.mpr (by simpa using this)
  have hden0 : q.den ≠ 0 := q.den_nz
  set c := 10 ^ k / q.den with hcdef
  have hc : c * q.den = 10 ^ k := Nat.div_mul_cancel hkdvd
  have hc0 : c ≠ 0 := by
    intro h
    rw [h] at hc
    simp at hc
    exact absurd hc.symm (by positivity)
  set mag := q.num.natAbs * c with hmagdef
  by_cases hk0 : k = 0
  · -- denominator 1; rendered as the integer digits followed by a lone zero
    have hden1 : q.den = 1 := Nat.dvd_one.mp (by rw [hk0] at hkdvd; simpa using hkdvd)
    have hc1 : c = 1 := by rw [hcdef, hden1, Nat.div_one, hk0, pow_zero]
    simp only [renderFloat, hfind]
    rw [← hcdef, ← hmagdef]
    simp only [if_pos hk0]
    have hbody : (if q.num < 0 then ['-'] else []) ++ renderNat mag ++ ['.', '0'] ++ rest =
        (if q.num < 0 then ['-'] else []) ++ renderNat mag ++ '.' :: (['0'] ++ rest) := by
      simp
    rw [hbody]
    rw [parseNum_decimal (q.num < 0) (renderNat mag) ['0'] rest (renderNat_ne_nil mag)
      (by simp) (fun _ hx => renderNat_digs hx)
      (by intro x hx; simp at hx; subst hx; decide) hrest]
    congr 2
    have hdv0 : digsVal ['0'] = 0 := by decide
    simp only [List.length_cons, List.length_nil, zero_add, hdv0, pow_one, renderNat_val]
    exact congrArg PyValue.float (mkRat_signed q 10 (mag * 10 + 0) 10 (by omega) (by omega)
      (by rw [hmagdef, hc1]; ring))
  · -- k fractional digits split out of the padded digit string
    simp only [renderFloat, hfind]
    rw [← hcdef, ← hmagdef]
    simp only [if_neg hk0]
    set ds2 := (if (renderNat mag).length ≤ k
        then List.replicate (k + 1 - (renderNat mag).length) '0' ++ renderNat mag
        else renderNat mag) with hds2
    have hds2digs : ∀ x ∈ ds2, isDig x = true := by
      intro x hx
      rw [hds2] at hx
      by_cases hlen : (renderNat mag).length ≤ k
      · rw [if_pos hlen] at hx
        rcases List.mem_append.mp hx with h | h
        · rw [List.eq_of_mem_replicate h]; decide
        · exact renderNat_digs h
      · rw [if_neg hlen] at hx
        exact renderNat_digs hx
    have hds2val : digsVal ds2 = mag := by
      rw [hds2]
      by_cases hlen : (renderNat mag).length ≤ k
      · rw [if_pos hlen, digsVal_zeros, renderNat_val]
      · rw [if_neg hlen, renderNat_val]
    have hLgt : k < ds2.length := by
      rw [hds2]
      by_cases hlen : (renderNat mag).length ≤ k
      · rw [if_pos hlen]
        have hnn := renderNat_ne_nil mag
        have : (renderNat mag).length ≠ 0 := fun h => hnn (List.length_eq_zero.mp h)
        simp [List.length_append, List.length_replicate]
        omega
      · rw [if_neg hlen]
        omega
    set tk := ds2.take (ds2.length - k) with htk
    set dr := ds2.drop (ds2.length - k) with hdr
    have hsplit : ds2 = tk ++ dr := (List.take_append_drop _ _).symm
    have htklen : tk.length = ds2.length - k := by
      rw [htk, List.length_take]
      omega
    have hdrlen : dr.length = k := by
      rw [hdr, List.length_drop]
      omega
    have htkne : tk ≠ [] := by
      intro h
      have := htklen
      rw [h] at this
      simp at this
      omega
    have hdrne : dr ≠ [] := by
      intro h
      have := hdrlen
      rw [h] at this
      simp at this
      omega
    have hbody : (if q.num < 0 then ['-'] else []) ++ (tk ++ '.' :: dr) ++ rest =
        (if q.num < 0 then ['-'] else []) ++ tk ++ '.' :: (dr ++ rest) := by
      simp
    rw [hbody]
    rw [parseNum_decimal (q.num < 0) tk dr rest htkne hdrne
      (fun x hx => hds2digs x (hsplit ▸ List.mem_append.mpr (Or.inl hx)))
      (fun x hx => hds2digs x (hsplit ▸ List.mem_append.mpr (Or.inr hx))) hrest]
    congr 2
    have hmagsplit : digsVal tk * 10 ^ dr.length + digsVal dr = mag := by
      rw [← digsVal_append, ← hsplit, hds2val]
    rw [hdrlen] at hmagsplit
    rw [hdrlen, hmagsplit]
    exact congrArg PyValue.float
      (mkRat_signed q c mag (10 ^ k) hc0 (by rw [mul_comm]; exact hc) hmagdef)

/-! ### String literal round trip -/

theorem hexVal_hexDigChar {d : Nat} (h : d < 16) :
    hexVal (hexDigChar d) = some d := by
  by_cases h10 : d < 10
  · have ht : (hexDigChar d).toNat = 48 + d := by
      rw [hexDigChar, if_pos h10]
      exact toNat_ofNat_valid (valid_of_lt_surr (by omega))
    rw [hexVal, if_pos (by omega)]
    congr 1
    omega
  · have ht : (hexDigChar d).toNat = 87 + d := by
      rw [hexDigChar, if_neg h10]
      exact toNat_ofNat_valid (valid_of_lt_surr (by omega))
    rw [hexVal, if_neg (by omega), if_pos (by omega)]
    congr 1
    omega

theorem hex4Val_hex4 {n : Nat} (h : n < 65536) :
    hex4Val (hexDigChar (n / 4096 % 16)) (hexDigChar (n / 256 % 16))
      (hexDigChar (n / 16 % 16)) (hexDigChar (n % 16)) = some n := by
  have e1 := hexVal_hexDigChar (show n / 4096 % 16 < 16 from Nat.mod_lt _ (by omega))
  have e2 := hexVal_hexDigChar (show n / 256 % 16 < 16 from Nat.mod_lt _ (by omega))
  have e3 := hexVal_hexDigChar (show n / 16 % 16 < 16 from Nat.mod_lt _ (by omega))
  have e4 := hexVal_hexDigChar (show n % 16 < 16 from Nat.mod_lt _ (by omega))
  simp only [hex4Val, e1, e2, e3, e4, Option.some.injEq]
  omega

theorem char_valid_nat (c : Char) :
    c.toNat < 55296 ∨ (57343 < c.toNat ∧ c.toNat < 1114112) := by
  have h := c.valid
  rcases h with h | ⟨h1, h2⟩
  · left
    exact h
  · right
    exact ⟨h1, h2⟩

theorem parseStrAux_bs (f : Nat) (rest : List Char) :
    parseStrAux (f + 1) ('\\' :: rest) =
      (escDecode rest).bind
        (fun p => (parseStrAux f p.2).map (fun q => (p.1 :: q.1, q.2))) := rfl

theorem parseStrAux_plain {c : Char} (h1 : c ≠ '"') (h2 : c ≠ '\\')
    (f : Nat) (rest : List Char) :
    parseStrAux (f + 1) (c :: rest) =
      (parseStrAux f rest).map (fun q => (c :: q.1, q.2)) := by
  have hb : parseStrAux (f + 1) (c :: rest) =
      (if c = '"' then some ([], rest)
        else if c = '\\' then
          (escDecode rest).bind
            (fun p => (parseStrAux f p.2).map (fun q => (p.1 :: q.1, q.2)))
        else (parseStrAux f rest).map (fun q => (c :: q.1, q.2))) := rfl
  rw [hb, if_neg h1, if_neg h2]

theorem escDecode_cons (e : Char) (rest : List Char) :
    escDecode (e :: rest) =
      (if e = 'u' then uDecode rest else (escCode e).map (fun c => (c, rest))) := rfl

theorem uDecode1_eq (n : Nat) (r2 : List Char) :
    uDecode1 n r2 =
      (if 55296 ≤ n ∧ n < 56320 then uDecodePair n r2
        else if 56320 ≤ n ∧ n < 57344 then none
        else some (Char.ofNat n, r2)) := rfl

theorem uDecodePair_cons (n : Nat) (b1 b2 g1 g2 g3 g4 : Char) (r3 : List Char) :
    uDecodePair n (b1 :: b2 :: g1 :: g2 :: g3 :: g4 :: r3) =
      (if b1 = '\\' ∧ b2 = 'u' then uDecodeLo n (hex4Val g1 g2 g3 g4) r3 else none) := rfl

theorem escChar_unfold (c : Char) :
    escChar c =
      (if c = '"' then ['\\', '"']
        else if c = '\\' then ['\\', '\\']
        else if c = Char.ofNat 8 then ['\\', 'b']
        else if c = Char.ofNat 9 then ['\\', 't']
        else if c = Char.ofNat 10 then ['\\', 'n']
        else if c = Char.ofNat 12 then ['\\', 'f']
        else if c = Char.ofNat 13 then ['\\', 'r']
        else if c.toNat < 32 ∨ 126 < c.toNat then
          if c.toNat < 65536 then '\\' :: 'u' :: hex4 c.toNat
          else
            '\\' :: 'u' :: hex4 (55296 + (c.toNat - 65536) / 1024) ++
              '\\' :: 'u' :: hex4 (56320 + (c.toNat - 65536) % 1024)
        else [c]) := rfl

theorem escChar_step (c : Char) (f : Nat) (t : List Char) :
    parseStrAux (f + 1) (escChar c ++ t) =
      (parseStrAux f t).map (fun q => (c :: q.1, q.2)) := by
  by_cases h1 : c = '"'
  · subst h1; rfl
  by_cases h2 : c = '\\'
  · subst h2; rfl
  by_cases h3 : c = Char.ofNat 8
  · subst h3; rfl
  by_cases h4 : c = Char.ofNat 9
  · subst h4; rfl
  by_cases h5 : c = Char.ofNat 10
  · subst h5; rfl
  by_cases h6 : c = Char.ofNat 12
  · subst h6; rfl
  by_cases h7 : c = Char.ofNat 13
  · subst h7; rfl
  by_cases h8 : c.toNat < 32 ∨ 126 < c.toNat
  · by_cases h9 : c.toNat < 65536
    · -- one backslash-u escape; a scalar value is outside the surrogate range
      have hval := char_valid_nat c
      have hs1 : ¬ (55296 ≤ c.toNat ∧ c.toNat < 56320) := by omega
      have hs2 : ¬ (56320 ≤ c.toNat ∧ c.toNat < 57344) := by omega
      rw [escChar_unfold, if_neg h1, if_neg h2, if_neg h3, if_neg h4, if_neg h5,
        if_neg h6, if_neg h7, if_pos h8, if_pos h9]
      rw [hex4]
      simp only [List.cons_append, List.nil_append]
      rw [parseStrAux_bs, escDecode_cons, if_pos rfl, uDecode]
      rw [hex4Val_hex4 h9]
      rw [Option.some_bind]
      rw [uDecode1_eq, if_neg hs1, if_neg hs2]
      simp [Char.ofNat_toNat]
    · -- astral plane: surrogate pair
      have hval := char_valid_nat c
      have hlt : c.toNat < 1114112 := by omega
      set v := c.toNat with hv
      set hi := 55296 + (v - 65536) / 1024 with hhi
      set lo := 56320 + (v - 65536) % 1024 with hlo
      have hhirange : 55296 ≤ hi ∧ hi < 56320 := by
        constructor
        · omega
        · have : (v - 65536) / 1024 < 1024 := by omega
          omega
      have hlorange : 56320 ≤ lo ∧ lo < 57344 := by
        have : (v - 65536) % 1024 < 1024 := Nat.mod_lt _ (by omega)
        omega
      rw [escChar_unfold, if_neg h1, if_neg h2, if_neg h3, if_neg h4, if_neg h5,
        if_neg h6, if_neg h7, if_pos h8, if_neg h9]
      rw [← hv, ← hhi, ← hlo, hex4, hex4]
      simp only [List.cons_append, List.nil_append, List.append_assoc]
      rw [parseStrAux_bs, escDecode_cons, if_pos rfl, uDecode]
      rw [hex4Val_hex4 (by omega : hi < 65536)]
      rw [Option.some_bind]
      rw [uDecode1_eq, if_pos hhirange, uDecodePair_cons,
        if_pos (⟨rfl, rfl⟩ : ('\\' : Char) = '\\' ∧ ('u' : Char) = 'u')]
      rw [hex4Val_hex4 (by omega : lo < 65536), uDecodeLo]
      rw [if_pos hlorange]
      have hcomb : 65536 + (hi - 55296) * 1024 + (lo - 56320) = v := by
        have hd := Nat.div_add_mod (v - 65536) 1024
        omega
      rw [hcomb, hv]
      simp [Char.ofNat_toNat]
  · -- plain printable ASCII character
    rw [escChar_unfold, if_neg h1, if_neg h2, if_neg h3, if_neg h4, if_neg h5,
      if_neg h6, if_neg h7, if_neg h8]
    rw [show ([c] : List Char) ++ t = c :: t from rfl]
    exact parseStrAux_plain h1 h2 f t

theorem escChar_ne_nil (c : Char) : escChar c ≠ [] := by
  rw [escChar_unfold]
  repeat' split
  all_goals simp

theorem escBody_length (l : List Char) : l.length < (escBody l).length := by
  induction l with
  | nil => simp [escBody]
  | cons c l ih =>
    have hstep : escBody (c :: l) = escChar c ++ escBody l := rfl
    rw [hstep, List.length_append, List.length_cons]
    have := List.length_pos.mpr (escChar_ne_nil c)
    omega

theorem parseStrAux_escBody (l rest : List Char) (f : Nat) (hf : l.length < f) :
    parseStrAux f (escBody l ++ rest) = some (l, rest) := by
  induction l generalizing f rest with
  | nil =>
    obtain ⟨g, rfl⟩ : ∃ g, f = g + 1 := ⟨f - 1, by omega⟩
    rfl
  | cons c l ih =>
    obtain ⟨g, rfl⟩ : ∃ g, f = g + 1 := ⟨f - 1, by omega⟩
    have hstep : escBody (c :: l) ++ rest = escChar c ++ (escBody l ++ rest) := by
      show (escChar c ++ escBody l) ++ rest = _
      rw [List.append_assoc]
    rw [hstep, escChar_step, ih rest g (by simp at hf; omega)]
    rfl

/-! ### Object assembly and the JSON domain -/

def pyHasKey : PyDict → PyKey → Bool
  | .nil, _ => false
  | .cons k1 _ rest, k => decide (k1 = k) || pyHasKey rest k

/-- Concatenation of entry sequences. -/
def pyDictApp : PyDict → PyDict → PyDict
  | .nil, d => d
  | .cons k v rest, d => .cons k v (pyDictApp rest d)

/-- Keys pairwise distinct, as in any dict produced by Python. -/
def keysND : PyDict → Bool
  | .nil => true
  | .cons k _ rest => !(pyHasKey rest k) && keysND rest

theorem pyDictApp_nil : ∀ d : PyDict, pyDictApp d .nil = d
  | .nil => rfl
  | .cons k v rest => by rw [pyDictApp, pyDictApp_nil rest]

theorem pyDictSet_notMem (k : PyKey) (v : PyValue) :
    ∀ acc : PyDict, pyHasKey acc k = false →
      pyDictSet acc k v = pyDictApp acc (.cons k v .nil)
  | .nil, _ => rfl
  | .cons k1 v1 rest, h => by
    simp only [pyHasKey, Bool.or_eq_false_iff, decide_eq_false_iff_not] at h
    simp only [pyDictSet, if_neg h.1, pyDictApp]
    rw [pyDictSet_notMem k v rest h.2]

theorem pyHasKey_app (k : PyKey) :
    ∀ a b : PyDict, pyHasKey (pyDictApp a b) k = (pyHasKey a k || pyHasKey b k)
  | .nil, b => by simp [pyDictApp, pyHasKey]
  | .cons k1 v1 rest, b => by
    simp [pyDictApp, pyHasKey, pyHasKey_app k rest b, Bool.or_assoc]

theorem pyDictApp_assoc_single :
    ∀ (acc : PyDict) (k : PyKey) (v : PyValue) (rest : PyDict),
      pyDictApp (pyDictApp acc (.cons k v .nil)) rest = pyDictApp acc (.cons k v rest)
  | .nil, _, _, _ => rfl
  | .cons k1 v1 r1, k, v, rest => by
    simp only [pyDictApp]
    rw [pyDictApp_assoc_single r1 k v rest]

theorem pyDictBuild_app :
    ∀ kvs acc : PyDict, keysND kvs = true →
      (∀ k, pyHasKey kvs k = true → pyHasKey acc k = false) →
      pyDictBuild acc kvs = pyDictApp acc kvs
  | .nil, acc, _, _ => by rw [pyDictBuild, pyDictApp_nil]
  | .cons k v rest, acc, hnd, hdisj => by
    have hnd1 : pyHasKey rest k = false ∧ keysND rest = true := by
      simp only [keysND, Bool.and_eq_true, Bool.not_eq_true'] at hnd
      exact hnd
    have hk : pyHasKey acc k = false := hdisj k (by simp [pyHasKey])
    simp only [pyDictBuild]
    rw [pyDictSet_notMem k v acc hk]
    rw [pyDictBuild_app rest (pyDictApp acc (.cons k v .nil)) hnd1.2 ?disj]
    case disj =>
      intro k2 hk2
      rw [pyHasKey_app]
      have h1 : pyHasKey acc k2 = false := hdisj k2 (by simp [pyHasKey, hk2])
      have h2 : pyHasKey (PyDict.cons k v .nil) k2 = false := by
        simp only [pyHasKey, Bool.or_eq_false_iff, decide_eq_false_iff_not]
        constructor
        · intro he
          subst he
          rw [hk2] at hnd1
          exact absurd hnd1.1 (by simp)
        · simp [pyHasKey]
      rw [h1, h2]
      rfl
    exact pyDictApp_assoc_single acc k v rest

theorem pyDictBuild_nodup (kvs : PyDict) (hnd : keysND kvs = true) :
    pyDictBuild .nil kvs = kvs :=
  pyDictBuild_app kvs .nil hnd (fun _ _ => rfl)

mutual
/-- A value inside the JSON domain: floats have terminating decimal
expansions (true of every IEEE float), dict keys are strings and are
pairwise distinct.  json.dumps-then-json.loads is the identity exactly
on this domain. -/
def jsonOkV : PyValue → Bool
  | .null => true
  | .bool _ => true
  | .int _ => true
  | .float q => isDecimalRat q
  | .str _ => true
  | .list xs => jsonOkL xs
  | .dict kvs => keysND kvs && jsonOkD kvs
def jsonOkL : PyList → Bool
  | .nil => true
  | .cons v vs => jsonOkV v && jsonOkL vs
def jsonOkD : PyDict → Bool
  | .nil => true
  | .cons k v kvs =>
    (match k with | .str _ => true | .int _ => false) && jsonOkV v && jsonOkD kvs
end

mutual
/-- Nesting measure of a value, a fuel bound for the reader. -/
def sizeV : PyValue → Nat
  | .list xs => 1 + sizeL xs
  | .dict kvs => 1 + sizeD kvs
  | _ => 1
def sizeL : PyList → Nat
  | .nil => 0
  | .cons v vs => 1 + max (sizeV v) (sizeL vs)
def sizeD : PyDict → Nat
  | .nil => 0
  | .cons _ v kvs => 1 + max (sizeV v) (sizeD kvs)
end

theorem sizeV_pos (v : PyValue) : 1 ≤ sizeV v := by
  cases v <;> simp [sizeV]

/-! ### Leading characters of encoded values -/

theorem renderInt_head (i : Int) :
    ∃ d ds, renderInt i = d :: ds ∧ (d = '-' ∨ isDig d = true) := by
  by_cases hn : i < 0
  · exact ⟨'-', renderNat i.natAbs, by rw [renderInt, if_pos hn], Or.inl rfl⟩
  · obtain ⟨d, ds, hds, hd⟩ := renderNat_head i.natAbs
    exact ⟨d, ds, by rw [renderInt, if_neg hn, hds], Or.inr hd⟩

theorem renderFloat_head (q : Rat) :
    ∃ d ds, renderFloat q = d :: ds ∧ (d = '-' ∨ d = '?' ∨ isDig d = true) := by
  rw [renderFloat]
  rcases hfind : decExpFind q.den with _ | k
  · exact ⟨'?', _, rfl, Or.inr (Or.inl rfl)⟩
  · by_cases hk0 : k = 0
    · simp only [if_pos hk0]
      by_cases hn : q.num < 0
      · exact ⟨'-', _, by rw [if_pos hn]; rfl, Or.inl rfl⟩
      · obtain ⟨d, ds, hds, hd⟩ := renderNat_head (q.num.natAbs * (10 ^ k / q.den))
        refine ⟨d, ds ++ ['.', '0'], ?_, Or.inr (Or.inr hd)⟩
        rw [if_neg hn, List.nil_append, hds]
        rfl
    · simp only [if_neg hk0]
      set ds0 := renderNat (q.num.natAbs * (10 ^ k / q.den)) with hds0
      set ds2 := (if ds0.length ≤ k then List.replicate (k + 1 - ds0.length) '0' ++ ds0
        else ds0) with hds2
      have hds2digs : ∀ x ∈ ds2, isDig x = true := by
        intro x hx
        rw [hds2] at hx
        by_cases hlen : ds0.length ≤ k
        · rw [if_pos hlen] at hx
          rcases List.mem_append.mp hx with h | h
          · rw [List.eq_of_mem_replicate h]; decide
          · exact renderNat_digs h
        · rw [if_neg hlen] at hx
          exact renderNat_digs hx
      have hLgt : k < ds2.length := by
        rw [hds2]
        by_cases hlen : ds0.length ≤ k
        · rw [if_pos hlen]
          have hnn := renderNat_ne_nil (q.num.natAbs * (10 ^ k / q.den))
          rw [← hds0] at hnn
          have : ds0.length ≠ 0 := fun h => hnn (List.length_eq_zero.mp h)
          simp [List.length_append, List.length_replicate]
          omega
        · rw [if_neg hlen]
          omega
      obtain ⟨d, ds1, hcons⟩ : ∃ d ds1, ds2.take (ds2.length - k) = d :: ds1 := by
        rcases htake : ds2.take (ds2.length - k) with _ | ⟨d, ds1⟩
        · have := congrArg List.length htake
          rw [List.length_take] at this
          simp at this
          omega
        · exact ⟨d, ds1, rfl⟩
      have hd : isDig d = true := by
        have : d ∈ ds2.take (ds2.length - k) := by rw [hcons]; exact List.mem_cons_self d ds1
        exact hds2digs d (List.take_subset _ _ this)
      by_cases hn : q.num < 0
      · exact ⟨'-', _, by rw [if_pos hn]; rfl, Or.inl rfl⟩
      · refine ⟨d, ds1 ++ '.' :: ds2.drop (ds2.length - k), ?_, Or.inr (Or.inr hd)⟩
        rw [if_neg hn, List.nil_append, hcons]
        rfl

theorem numHead_ne {d : Char} (h : d = '-' ∨ d = '?' ∨ isDig d = true) :
    d ≠ '"' ∧ d ≠ '[' ∧ d ≠ '\x7b' ∧ d ≠ 'n' ∧ d ≠ 't' ∧ d ≠ 'f' ∧
      d ≠ ']' ∧ d ≠ '\x7d' := by
  rcases h with rfl | rfl | hd
  · refine ⟨?_, ?_, ?_, ?_, ?_, ?_, ?_, ?_⟩ <;> decide
  · refine ⟨?_, ?_, ?_, ?_, ?_, ?_, ?_, ?_⟩ <;> decide
  · have := isDig_toNat hd
    refine ⟨?_, ?_, ?_, ?_, ?_, ?_, ?_, ?_⟩ <;>
      (intro he; rw [he] at this; revert this; decide)

theorem dumpsV_head (v : PyValue) :
    ∃ c cs, dumpsV v = c :: cs ∧ c ≠ ']' ∧ c ≠ '\x7d' := by
  cases v with
  | null => exact ⟨'n', _, rfl, by decide, by decide⟩
  | bool b =>
    cases b
    · exact ⟨'f', _, rfl, by decide, by decide⟩
    · exact ⟨'t', _, rfl, by decide, by decide⟩
  | int i =>
    obtain ⟨d, ds, hds, hd⟩ := renderInt_head i
    have := numHead_ne (d := d) (by tauto)
    exact ⟨d, ds, by rw [show dumpsV (.int i) = renderInt i from rfl, hds], this.2.2.2.2.2.2.1,
      this.2.2.2.2.2.2.2⟩
  | float q =>
    obtain ⟨d, ds, hds, hd⟩ := renderFloat_head q
    have := numHead_ne (d := d) hd
    exact ⟨d, ds, by rw [show dumpsV (.float q) = renderFloat q from rfl, hds],
      this.2.2.2.2.2.2.1, this.2.2.2.2.2.2.2⟩
  | str s => exact ⟨'"', _, rfl, by decide, by decide⟩
  | list xs => exact ⟨'[', _, rfl, by decide, by decide⟩
  | dict kvs => exact ⟨'\x7b', _, rfl, by decide, by decide⟩

/-! ### The dumps-then-loads round trip -/

/-- Entries of an object after the first one, with their leading comma. -/
def dumpsDTail : PyDict → List Char
  | .nil => []
  | .cons k w ws => ',' :: dumpsD (.cons k w ws)

theorem parseVal_cons (f : Nat) (c : Char) (rest : List Char) :
    parseVal (f + 1) (c :: rest) =
      (if c = '"' then
        (parseStrAux (rest.length + 1) rest).map (fun p => (.str (String.mk p.1), p.2))
      else if c = '[' then
        if rest.head? = some ']' then some (.list .nil, rest.tail)
        else (parseElems f rest).map (fun p => (.list p.1, p.2))
      else if c = '\x7b' then
        if rest.head? = some '\x7d' then some (.dict .nil, rest.tail)
        else (parseEntries f rest).map (fun p => (.dict (pyDictBuild .nil p.1), p.2))
      else if c = 'n' then (eatTok ['u', 'l', 'l'] rest).map (fun r => (.null, r))
      else if c = 't' then (eatTok ['r', 'u', 'e'] rest).map (fun r => (.bool true, r))
      else if c = 'f' then (eatTok ['a', 'l', 's', 'e'] rest).map (fun r => (.bool false, r))
      else parseNum (c :: rest)) := rfl

theorem parseElems_succ (f : Nat) (cs : List Char) :
    parseElems (f + 1) cs =
      (parseVal f cs).bind (fun p =>
        if p.2.head? = some ',' then
          (parseElems f p.2.tail).map (fun q => (.cons p.1 q.1, q.2))
        else if p.2.head? = some ']' then some (.cons p.1 .nil, p.2.tail)
        else none) := rfl

theorem parseEntries_cons (f : Nat) (c : Char) (rest : List Char) :
    parseEntries (f + 1) (c :: rest) =
      (if c = '"' then
        (parseStrAux (rest.length + 1) rest).bind (fun ps =>
          if ps.2.head? = some ':' then
            (parseVal f ps.2.tail).bind (fun p =>
              if p.2.head? = some ',' then
                (parseEntries f p.2.tail).map
                  (fun q => (.cons (.str (String.mk ps.1)) p.1 q.1, q.2))
              else if p.2.head? = some '\x7d' then
                some (.cons (.str (String.mk ps.1)) p.1 .nil, p.2.tail)
              else none)
          else none)
      else none) := rfl

theorem dumpsL_head (v : PyValue) (vs : PyList) :
    ∃ c cs, dumpsL (.cons v vs) = c :: cs ∧ c ≠ ']' ∧ c ≠ '\x7d' := by
  obtain ⟨c, cs0, hc0, h1, h2⟩ := dumpsV_head v
  cases vs with
  | nil => exact ⟨c, cs0, by rw [show dumpsL (.cons v .nil) = dumpsV v from rfl, hc0], h1, h2⟩
  | cons w ws =>
    refine ⟨c, cs0 ++ ',' :: dumpsL (.cons w ws), ?_, h1, h2⟩
    rw [show dumpsL (.cons v (.cons w ws)) = dumpsV v ++ ',' :: dumpsL (.cons w ws) from rfl,
      hc0, List.cons_append]

theorem strMk_data (s : String) : String.mk s.data = s := rfl

theorem numBoundary_cons {c : Char} {r : List Char} (h1 : isDig c = false)
    (h2 : c ≠ '.') : numBoundary (c :: r) := ⟨h1, h2⟩

mutual
theorem rtV : ∀ (f : Nat) (v : PyValue) (rest : List Char), sizeV v ≤ f →
    jsonOkV v = true → numBoundary rest →
    parseVal f (dumpsV v ++ rest) = some (v, rest)
  | 0, v, _, hf, _, _ => absurd hf (by have := sizeV_pos v; omega)
  | _ + 1, .null, _, _, _, _ => rfl
  | _ + 1, .bool true, _, _, _, _ => rfl
  | _ + 1, .bool false, _, _, _, _ => rfl
  | f + 1, .int i, rest, _, _, hrest => by
    obtain ⟨d, ds, hds, hd⟩ := renderInt_head i
    have hne := numHead_ne (d := d) (by tauto)
    show parseVal (f + 1) (renderInt i ++ rest) = _
    rw [hds, List.cons_append, parseVal_cons]
    rw [if_neg hne.1, if_neg hne.2.1, if_neg hne.2.2.1, if_neg hne.2.2.2.1,
      if_neg hne.2.2.2.2.1, if_neg hne.2.2.2.2.2.1]
    rw [← List.cons_append, ← hds]
    exact parseNum_int i rest hrest
  | f + 1, .float q, rest, _, hok, hrest => by
    obtain ⟨d, ds, hds, hd⟩ := renderFloat_head q
    have hne := numHead_ne (d := d) hd
    show parseVal (f + 1) (renderFloat q ++ rest) = _
    rw [hds, List.cons_append, parseVal_cons]
    rw [if_neg hne.1, if_neg hne.2.1, if_neg hne.2.2.1, if_neg hne.2.2.2.1,
      if_neg hne.2.2.2.2.1, if_neg hne.2.2.2.2.2.1]
    rw [← List.cons_append, ← hds]
    exact parseNum_float q rest (by simpa [jsonOkV] using hok) hrest
  | f + 1, .str s, rest, _, _, _ => by
    show parseVal (f + 1) (renderStr s ++ rest) = _
    rw [show renderStr s ++ rest = '"' :: (escBody s.data ++ rest) from rfl]
    rw [parseVal_cons, if_pos rfl]
    rw [parseStrAux_escBody s.data rest _ ?hb]
    case hb =>
      have h1 := escBody_length s.data
      rw [List.length_append]
      omega
    rfl
  | _ + 1, .list .nil, _, _, _, _ => rfl
  | f + 1, .list (.cons v vs), rest, hf, hok, _ => by
    rw [show dumpsV (.list (.cons v vs)) ++ rest =
        '[' :: (dumpsL (.cons v vs) ++ ']' :: rest) from by
      rw [show dumpsV (.list (.cons v vs)) = '[' :: (dumpsL (.cons v vs) ++ [']'])
        from rfl]
      simp]
    rw [parseVal_cons, if_neg (by decide), if_pos rfl]
    obtain ⟨c, cs, hcs, hc, _⟩ := dumpsL_head v vs
    rw [if_neg (show ¬ (dumpsL (.cons v vs) ++ ']' :: rest).head? = some ']' from by
      rw [hcs, List.cons_append, List.head?_cons]
      simp [hc])]
    rw [rtL f (.cons v vs) rest (by simp [sizeV] at hf; omega)
      (by simpa [jsonOkV] using hok) (by simp)]
    rfl
  | _ + 1, .dict .nil, _, _, _, _ => rfl
  | f + 1, .dict (.cons k v kvs), rest, hf, hok, _ => by
    have hok2 : keysND (PyDict.cons k v kvs) = true ∧
        jsonOkD (PyDict.cons k v kvs) = true := by
      simpa [jsonOkV, Bool.and_eq_true] using hok
    obtain ⟨s, rfl⟩ : ∃ s, k = .str s := by
      cases k with
      | str s => exact ⟨s, rfl⟩
      | int n =>
        have := hok2.2
        simp [jsonOkD] at this
    rw [show dumpsV (.dict (.cons (.str s) v kvs)) ++ rest =
        '\x7b' :: (dumpsD (.cons (.str s) v kvs) ++ '\x7d' :: rest) from by
      rw [show dumpsV (.dict (.cons (.str s) v kvs)) =
          '\x7b' :: (dumpsD (.cons (.str s) v kvs) ++ ['\x7d']) from rfl]
      simp]
    rw [parseVal_cons, if_neg (by decide), if_neg (by decide), if_pos rfl]
    obtain ⟨tail0, htail⟩ : ∃ t0,
        dumpsD (.cons (.str s) v kvs) ++ '\x7d' :: rest = '"' :: t0 := by
      cases kvs with
      | nil => exact ⟨_, rfl⟩
      | cons k2 w ws => exact ⟨_, rfl⟩
    rw [if_neg (show ¬ (dumpsD (.cons (.str s) v kvs) ++ '\x7d' :: rest).head? =
        some '\x7d' from by rw [htail]; simp)]
    rw [rtD f (.cons (.str s) v kvs) rest (by simp [sizeV] at hf; omega) hok2.2
      (by simp)]
    simp only [Option.map_some']
    rw [pyDictBuild_nodup _ hok2.1]
  termination_by f _ _ _ _ _ => (f, 0)

theorem rtL : ∀ (f : Nat) (xs : PyList) (rest : List Char), sizeL xs ≤ f →
    jsonOkL xs = true → xs ≠ .nil →
    parseElems f (dumpsL xs ++ ']' :: rest) = some (xs, rest)
  | 0, .nil, _, _, _, hne => absurd rfl hne
  | 0, .cons v vs, _, hf, _, _ => by simp [sizeL] at hf
  | _ + 1, .nil, _, _, _, hne => absurd rfl hne
  | f + 1, .cons v vs, rest, hf, hok, _ => by
    have hsz : sizeV v ≤ f ∧ sizeL vs ≤ f := by
      simp only [sizeL] at hf
      omega
    have hok2 : jsonOkV v = true ∧ jsonOkL vs = true := by
      simpa [jsonOkL, Bool.and_eq_true] using hok
    rw [parseElems_succ]
    cases vs with
    | nil =>
      rw [show dumpsL (.cons v .nil) ++ ']' :: rest = dumpsV v ++ ']' :: rest from rfl]
      rw [rtV f v (']' :: rest) hsz.1 hok2.1 (numBoundary_cons (by decide) (by decide))]
      rw [Option.some_bind]
      simp only [List.head?_cons, List.tail_cons]
      rw [if_neg (show ¬ (some ']' = some (',' : Char)) from by decide),
        if_pos trivial]
    | cons w ws =>
      rw [show dumpsL (.cons v (.cons w ws)) ++ ']' :: rest =
          dumpsV v ++ ',' :: (dumpsL (.cons w ws) ++ ']' :: rest) from by
        rw [show dumpsL (.cons v (.cons w ws)) = dumpsV v ++ ',' :: dumpsL (.cons w ws)
          from rfl]
        simp]
      rw [rtV f v _ hsz.1 hok2.1 (numBoundary_cons (by decide) (by decide))]
      rw [Option.some_bind]
      simp only [List.head?_cons, List.tail_cons]
      rw [if_pos trivial]
      rw [rtL f (.cons w ws) rest hsz.2 hok2.2 (by simp)]
      rfl
  termination_by f _ _ _ _ _ => (f, 1)

theorem rtD : ∀ (f : Nat) (kvs : PyDict) (rest : List Char), sizeD kvs ≤ f →
    jsonOkD kvs = true → kvs ≠ .nil →
    parseEntries f (dumpsD kvs ++ '\x7d' :: rest) = some (kvs, rest)
  | 0, .nil, _, _, _, hne => absurd rfl hne
  | 0, .cons k v kvs, _, hf, _, _ => by simp [sizeD] at hf
  | _ + 1, .nil, _, _, _, hne => absurd rfl hne
  | f + 1, .cons k v kvs, rest, hf, hok, _ => by
    have hsz : sizeV v ≤ f ∧ sizeD kvs ≤ f := by
      simp only [sizeD] at hf
      omega
    obtain ⟨s, rfl⟩ : ∃ s, k = .str s := by
      cases k with
      | str s => exact ⟨s, rfl⟩
      | int n => simp [jsonOkD] at hok
    have hok2 : jsonOkV v = true ∧ jsonOkD kvs = true := by
      simpa [jsonOkD, Bool.and_eq_true] using hok
    have hshape : dumpsD (.cons (.str s) v kvs) ++ '\x7d' :: rest =
        '"' :: (escBody s.data ++ (':' :: (dumpsV v ++ dumpsDTail kvs ++ '\x7d' :: rest))) := by
      cases kvs <;> simp [dumpsD, renderKey, renderStr, dumpsDTail]
    rw [hshape, parseEntries_cons, if_pos rfl]
    rw [parseStrAux_escBody s.data _ _ ?hb]
    case hb =>
      have h1 := escBody_length s.data
      rw [List.length_append]
      omega
    rw [Option.some_bind]
    simp only [List.head?_cons, List.tail_cons]
    rw [if_pos trivial]
    cases kvs with
    | nil =>
      rw [show dumpsV v ++ dumpsDTail .nil ++ '\x7d' :: rest = dumpsV v ++ '\x7d' :: rest
        from by simp [dumpsDTail]]
      rw [rtV f v ('\x7d' :: rest) hsz.1 hok2.1 (numBoundary_cons (by decide) (by decide))]
      rw [Option.some_bind]
      simp only [List.head?_cons, List.tail_cons]
      rw [if_neg (show ¬ (some '\x7d' = some (',' : Char)) from by decide),
        if_pos trivial, strMk_data]
    | cons k2 w ws =>
      rw [show dumpsV v ++ dumpsDTail (.cons k2 w ws) ++ '\x7d' :: rest =
          dumpsV v ++ ',' :: (dumpsD (.cons k2 w ws) ++ '\x7d' :: rest) from by
        simp [dumpsDTail]]
      rw [rtV f v _ hsz.1 hok2.1 (numBoundary_cons (by decide) (by decide))]
      rw [Option.some_bind]
      simp only [List.head?_cons, List.tail_cons]
      rw [if_pos trivial]
      rw [rtD f (.cons k2 w ws) rest hsz.2 hok2.2 (by simp)]
      rw [strMk_data]
      rfl
  termination_by f _ _ _ _ _ => (f, 1)
end

mutual
theorem sizeV_le_len : ∀ v : PyValue, sizeV v ≤ (dumpsV v).length
  | .null => by decide
  | .bool true => by decide
  | .bool false => by decide
  | .int i => by
    obtain ⟨d, ds, hds, _⟩ := renderInt_head i
    show sizeV (.int i) ≤ (renderInt i).length
    rw [hds]
    simp [sizeV]
  | .float q => by
    obtain ⟨d, ds, hds, _⟩ := renderFloat_head q
    show sizeV (.float q) ≤ (renderFloat q).length
    rw [hds]
    simp [sizeV]
  | .str s => by
    show sizeV (.str s) ≤ ('"' :: escBody s.data).length
    simp [sizeV]
  | .list xs => by
    have h := sizeL_le_len xs
    show sizeV (.list xs) ≤ ('[' :: (dumpsL xs ++ [']'])).length
    simp only [sizeV, List.length_cons, List.length_append, List.length_nil]
    omega
  | .dict kvs => by
    have h := sizeD_le_len kvs
    show sizeV (.dict kvs) ≤ ('\x7b' :: (dumpsD kvs ++ ['\x7d'])).length
    simp only [sizeV, List.length_cons, List.length_append, List.length_nil]
    omega
theorem sizeL_le_len : ∀ xs : PyList, sizeL xs ≤ (dumpsL xs).length + 1
  | .nil => by simp [sizeL, dumpsL]
  | .cons v .nil => by
    have h := sizeV_le_len v
    have e2 : sizeL .nil = 0 := rfl
    have e1 : sizeL (.cons v .nil) = 1 + sizeV v := by
      rw [show sizeL (.cons v .nil) = 1 + max (sizeV v) (sizeL .nil) from rfl, e2,
        Nat.max_zero]
    show sizeL (.cons v .nil) ≤ (dumpsV v).length + 1
    omega
  | .cons v (.cons w ws) => by
    have h1 := sizeV_le_len v
    have h2 := sizeL_le_len (.cons w ws)
    have e : sizeL (.cons v (.cons w ws)) =
        1 + max (sizeV v) (sizeL (.cons w ws)) := rfl
    have hm : max (sizeV v) (sizeL (.cons w ws)) ≤
        (dumpsV v).length + ((dumpsL (.cons w ws)).length + 1) :=
      max_le (by omega) (by omega)
    show sizeL (.cons v (.cons w ws)) ≤ (dumpsV v ++ ',' :: dumpsL (.cons w ws)).length + 1
    simp only [List.length_append, List.length_cons]
    omega
theorem sizeD_le_len : ∀ kvs : PyDict, sizeD kvs ≤ (dumpsD kvs).length + 1
  | .nil => by simp [sizeD, dumpsD]
  | .cons k v .nil => by
    have h := sizeV_le_len v
    have e2 : sizeD .nil = 0 := rfl
    have e1 : sizeD (.cons k v .nil) = 1 + sizeV v := by
      rw [show sizeD (.cons k v .nil) = 1 + max (sizeV v) (sizeD .nil) from rfl, e2,
        Nat.max_zero]
    show sizeD (.cons k v .nil) ≤ (renderKey k ++ ':' :: dumpsV v).length + 1
    simp only [List.length_append, List.length_cons]
    omega
  | .cons k v (.cons k2 w ws) => by
    have h1 := sizeV_le_len v
    have h2 := sizeD_le_len (.cons k2 w ws)
    have e : sizeD (.cons k v (.cons k2 w ws)) =
        1 + max (sizeV v) (sizeD (.cons k2 w ws)) := rfl
    have hm : max (sizeV v) (sizeD (.cons k2 w ws)) ≤
        (dumpsV v).length + ((dumpsD (.cons k2 w ws)).length + 1) :=
      max_le (by omega) (by omega)
    show sizeD (.cons k v (.cons k2 w ws)) ≤
      (renderKey k ++ ':' :: dumpsV v ++ ',' :: dumpsD (.cons k2 w ws)).length + 1
    simp only [List.length_append, List.length_cons]
    omega
end

/-- json.loads inverts json.dumps exactly on the JSON domain: values
with string dict keys, pairwise-distinct keys, and floats (which always
have terminating decimal expansions). -/
theorem loads_dumps (v : PyValue) (hok : jsonOkV v = true) :
    loads (dumps v) = some v := by
  have hdata : (dumps v).data = dumpsV v := rfl
  have h1 : parseVal ((dumps v).data.length + 1) (dumps v).data = some (v, []) := by
    rw [hdata]
    have hb : sizeV v ≤ (dumpsV v).length + 1 := by
      have := sizeV_le_len v
      omega
    have := rtV ((dumpsV v).length + 1) v [] hb hok trivial
    simpa using this
  rw [loads, h1]

/- ### Data model: core.py dataclasses

`Experience` and `Memory` mirror the dataclasses in
src/computer_use_demo/memory/core.py.  Python is dynamically typed, so the
`content`, `metadata` and `context` fields (annotated Dict[str, Any]) can in
fact hold any JSON-able value; we model them as `PyValue`.  `tags` is a list
of strings, `relationships` an insertion-ordered dict from relationship name
to a list of target ids, `embedding` a list of floats (modelled exactly as
rationals), and the float scalar fields are rationals as well.  `id`,
`timestamp` and `last_accessed` are strings (uuid4 / datetime.isoformat are
produced by the caller of the model, mirroring the default factories). -/

structure Experience where
  id : String
  timestamp : String
  type : String
  content : PyValue
  metadata : PyValue
  tags : List String
  importance : Rat
  context : PyValue
  relationships : List (String × List String)
deriving DecidableEq

structure Memory where
  experience : Experience
  embedding : List Rat
  last_accessed : String
  access_count : Nat
  emotional_valence : Rat
  confidence : Rat
deriving DecidableEq

/- Conversions between the structured Python values and the `PyValue`
universe handed to json.dumps.  These mirror how the Python runtime views
a List[str], a Dict[str, List[str]] and a List[float] as generic objects. -/

def strsToPy : List String → PyList
  | [] => .nil
  | s :: rest => .cons (.str s) (strsToPy rest)

def pyToStrs : PyList → Option (List String)
  | .nil => some []
  | .cons (.str s) rest => (pyToStrs rest).map (fun l => s :: l)
  | .cons _ _ => none

def relsToPy : List (String × List String) → PyDict
  | [] => .nil
  | (k, v) :: rest => .cons (.str k) (.list (strsToPy v)) (relsToPy rest)

def pyToRels : PyDict → Option (List (String × List String))
  | .nil => some []
  | .cons (.str k) (.list v) rest =>
    (pyToStrs v).bind (fun l => (pyToRels rest).map (fun r => (k, l) :: r))
  | .cons _ _ _ => none

def floatsToPy : List Rat → PyList
  | [] => .nil
  | q :: rest => .cons (.float q) (floatsToPy rest)

def pyToFloats : PyList → Option (List Rat)
  | .nil => some []
  | .cons (.float q) rest => (pyToFloats rest).map (fun l => q :: l)
  | .cons _ _ => none

theorem pyToStrs_strsToPy : ∀ l : List String, pyToStrs (strsToPy l) = some l
  | [] => rfl
  | s :: rest => by
    show (pyToStrs (strsToPy rest)).map (fun l => s :: l) = some (s :: rest)
    rw [pyToStrs_strsToPy rest]; rfl

theorem pyToRels_relsToPy : ∀ l : List (String × List String),
    pyToRels (relsToPy l) = some l
  | [] => rfl
  | (k, v) :: rest => by
    show (pyToStrs (strsToPy v)).bind
      (fun l => (pyToRels (relsToPy rest)).map (fun r => (k, l) :: r)) =
      some ((k, v) :: rest)
    rw [pyToStrs_strsToPy v, Option.some_bind, pyToRels_relsToPy rest]; rfl

theorem pyToFloats_floatsToPy : ∀ l : List Rat,
    pyToFloats (floatsToPy l) = some l
  | [] => rfl
  | q :: rest => by
    show (pyToFloats (floatsToPy rest)).map (fun l => q :: l) = some (q :: rest)
    rw [pyToFloats_floatsToPy rest]; rfl

theorem jsonOkL_strsToPy : ∀ l : List String, jsonOkL (strsToPy l) = true
  | [] => rfl
  | s :: rest => by
    show (jsonOkV (.str s) && jsonOkL (strsToPy rest)) = true
    rw [jsonOkL_strsToPy rest]; rfl

theorem jsonOkL_floatsToPy : ∀ l : List Rat,
    l.all isDecimalRat = true → jsonOkL (floatsToPy l) = true
  | [], _ => rfl
  | q :: rest, h => by
    have h' := h
    simp only [List.all_cons, Bool.and_eq_true] at h'
    show (jsonOkV (.float q) && jsonOkL (floatsToPy rest)) = true
    rw [jsonOkL_floatsToPy rest h'.2]
    show (isDecimalRat q && true) = true
    rw [h'.1]
    rfl

def relKeysND : List (String × List String) → Bool
  | [] => true
  | (k, _) :: rest => !(rest.any (fun p => p.1 = k)) && relKeysND rest

theorem pyHasKey_relsToPy (k : String) : ∀ l : List (String × List String),
    pyHasKey (relsToPy l) (.str k) = l.any (fun p => p.1 = k)
  | [] => rfl
  | (k2, v) :: rest => by
    show (decide (PyKey.str k2 = PyKey.str k) || pyHasKey (relsToPy rest) (.str k)) =
      (decide ((k2, v).1 = k) || rest.any (fun p => decide (p.1 = k)))
    rw [pyHasKey_relsToPy k rest]
    by_cases h : k2 = k
    · subst h; simp
    · simp only [h, decide_False]
      have h2 : ¬ (PyKey.str k2 = PyKey.str k) := fun hh => h (by cases hh; rfl)
      simp [h2]

theorem jsonOkD_relsToPy : ∀ l : List (String × List String),
    relKeysND l = true → (keysND (relsToPy l) && jsonOkD (relsToPy l)) = true
  | [], _ => rfl
  | (k, v) :: rest, h => by
    have h' := h
    simp only [relKeysND, Bool.and_eq_true, Bool.not_eq_true'] at h'
    have ih := jsonOkD_relsToPy rest h'.2
    simp only [Bool.and_eq_true] at ih
    show (!(pyHasKey (relsToPy rest) (.str k)) && keysND (relsToPy rest) &&
      ((true && jsonOkL (strsToPy v)) && jsonOkD (relsToPy rest))) = true
    rw [pyHasKey_relsToPy k rest, h'.1, ih.1, ih.2, jsonOkL_strsToPy v]
    rfl

/- ### Storage layer: storage.py

`MemRow` is one row of the `memories` SQLite table.  The TEXT columns for
content, metadata, tags, context, relationships and embedding hold the
json.dumps output; id, timestamp, type, last_accessed are TEXT, importance,
emotional_valence, confidence are REAL (exact rationals here: SQLite stores
the float64 bit pattern unchanged), access_count is INTEGER. -/

structure MemRow where
  id : String
  timestamp : String
  type : String
  content : String
  metadata : String
  tags : String
  importance : Rat
  context : String
  relationships : String
  embedding : String
  last_accessed : String
  access_count : Nat
  emotional_valence : Rat
  confidence : Rat
deriving DecidableEq

/-- The memory_data dict built by StorageManager.store_memory: the complex
fields pass through json.dumps, the scalars are bound directly. -/
def rowOfMemory (m : Memory) : MemRow where
  id := m.experience.id
  timestamp := m.experience.timestamp
  type := m.experience.type
  content := dumps m.experience.content
  metadata := dumps m.experience.metadata
  tags := dumps (.list (strsToPy m.experience.tags))
  importance := m.experience.importance
  context := dumps m.experience.context
  relationships := dumps (.dict (relsToPy m.experience.relationships))
  embedding := dumps (.list (floatsToPy m.embedding))
  last_accessed := m.last_accessed
  access_count := m.access_count
  emotional_valence := m.emotional_valence
  confidence := m.confidence

/-- INSERT OR REPLACE on the id PRIMARY KEY: a conflicting row is deleted
and the new row is inserted, obtaining a fresh (maximal) rowid, so in the
SELECT * scan order the stored row moves to the end of the table. -/
def store_memory (rows : List MemRow) (m : Memory) : List MemRow :=
  rows.filter (fun r => !(r.id = m.experience.id : Bool)) ++ [rowOfMemory m]

/-- Row reconstruction from StorageManager.load_all_memories / get_memory:
each JSON column goes through json.loads and the result is handed to the
Experience/Memory constructors.  Python performs no validation here; the
Option models json decode errors and the (never exercised on rows written
by store_memory) shape requirements of the typed tags / relationships /
embedding fields. -/
def memoryOfRow (r : MemRow) : Option Memory :=
  (loads r.content).bind (fun c =>
  (loads r.metadata).bind (fun md =>
  (loads r.tags).bind (fun tg =>
  (loads r.context).bind (fun cx =>
  (loads r.relationships).bind (fun rl =>
  (loads r.embedding).bind (fun em =>
  (match tg with | .list l => pyToStrs l | _ => none).bind (fun tags =>
  (match rl with | .dict d => pyToRels d | _ => none).bind (fun rels =>
  (match em with | .list l => pyToFloats l | _ => none).map (fun emb =>
    { experience :=
        { id := r.id
          timestamp := r.timestamp
          type := r.type
          content := c
          metadata := md
          tags := tags
          importance := r.importance
          context := cx
          relationships := rels }
      embedding := emb
      last_accessed := r.last_accessed
      access_count := r.access_count
      emotional_valence := r.emotional_valence
      confidence := r.confidence })))))))))

/-- Row-by-row reconstruction; a failing row aborts the scan (Python
would raise out of the cursor loop). -/
def decodeAll : List MemRow → Option (List Memory)
  | [] => some []
  | r :: rest =>
    (memoryOfRow r).bind (fun m => (decodeAll rest).map (fun ms => m :: ms))

/-- load_all_memories: SELECT * scan, reconstructing every row. -/
def load_all_memories (rows : List MemRow) : Option (List Memory) :=
  decodeAll rows

/-- get_memory: SELECT by id (first matching row), None when absent. -/
def get_memory (rows : List MemRow) (mid : String) : Option Memory :=
  (rows.find? (fun r => (r.id = mid : Bool))).bind memoryOfRow

/-- update_access: UPDATE last_accessed and access_count on the matching
row, in place (row order unchanged). -/
def update_access (rows : List MemRow) (mid : String) (nowTs : String) :
    List MemRow :=
  rows.map (fun r => if r.id = mid then
    { r with last_accessed := nowTs, access_count := r.access_count + 1 }
    else r)

/-- The JSON-domain condition on a Memory under which the dumps/loads
round trip is exact: content, metadata and context are JSON-clean
(string dict keys, distinct, decimal floats), the relationship names are
pairwise distinct, and every embedding coordinate is a decimal float. -/
def memOk (m : Memory) : Bool :=
  jsonOkV m.experience.content && jsonOkV m.experience.metadata &&
  jsonOkV m.experience.context && relKeysND m.experience.relationships &&
  m.embedding.all isDecimalRat

theorem memoryOfRow_rowOfMemory (m : Memory) (h : memOk m = true) :
    memoryOfRow (rowOfMemory m) = some m := by
  simp only [memOk, Bool.and_eq_true] at h
  obtain ⟨⟨⟨⟨hc, hmd⟩, hcx⟩, hrl⟩, hem⟩ := h
  have hrl' := jsonOkD_relsToPy m.experience.relationships hrl
  rw [memoryOfRow, rowOfMemory]
  rw [loads_dumps m.experience.content hc, Option.some_bind]
  rw [loads_dumps m.experience.metadata hmd, Option.some_bind]
  rw [loads_dumps (.list (strsToPy m.experience.tags))
    (jsonOkL_strsToPy m.experience.tags), Option.some_bind]
  rw [loads_dumps m.experience.context hcx, Option.some_bind]
  rw [loads_dumps (.dict (relsToPy m.experience.relationships)) hrl',
    Option.some_bind]
  rw [loads_dumps (.list (floatsToPy m.embedding))
    (jsonOkL_floatsToPy m.embedding hem), Option.some_bind]
  rw [show (match PyValue.list (strsToPy m.experience.tags) with
    | .list l => pyToStrs l | _ => none) = pyToStrs (strsToPy m.experience.tags)
    from rfl]
  rw [pyToStrs_strsToPy m.experience.tags, Option.some_bind]
  rw [show (match PyValue.dict (relsToPy m.experience.relationships) with
    | .dict d => pyToRels d | _ => none) =
    pyToRels (relsToPy m.experience.relationships) from rfl]
  rw [pyToRels_relsToPy m.experience.relationships, Option.some_bind]
  rw [show (match PyValue.list (floatsToPy m.embedding) with
    | .list l => pyToFloats l | _ => none) = pyToFloats (floatsToPy m.embedding)
    from rfl]
  rw [pyToFloats_floatsToPy m.embedding]
  rfl

/- ### embeddings.py fallback: CPython str hash (siphash13) and RandomState

_generate_simple_embedding seeds numpy.random.RandomState with hash(text).
CPython's str hash is siphash13 (sys.hash_info.algorithm) keyed by the
per-process _Py_HashSecret, which PYTHONHASHSEED randomises at interpreter
startup.  We model the keyed hash exactly (validated against CPython 3.11
reference values for both the zero key of PYTHONHASHSEED=0 and the
lcg-derived key of PYTHONHASHSEED=1); the key pair (k0, k1) is an explicit
parameter standing for the process identity.  Bytes are the UCS1 buffer of
the string, i.e. one byte per character for ASCII text. -/

def w64 (n : Nat) : Nat := n % 18446744073709551616

def rotl64 (x s : Nat) : Nat := w64 (x * 2 ^ s) + x / 2 ^ (64 - s)

structure Sip where
  v0 : Nat
  v1 : Nat
  v2 : Nat
  v3 : Nat

/-- One SIPROUND (two half rounds), as in Python/pyhash.c. -/
def sipRound (s : Sip) : Sip :=
  let a0 := w64 (s.v0 + s.v1)
  let c0 := w64 (s.v2 + s.v3)
  let b0 := Nat.xor (rotl64 s.v1 13) a0
  let d0 := Nat.xor (rotl64 s.v3 16) c0
  let a1 := rotl64 a0 32
  let c1 := w64 (c0 + b0)
  let a2 := w64 (a1 + d0)
  let b1 := Nat.xor (rotl64 b0 17) c1
  let d1 := Nat.xor (rotl64 d0 21) a2
  let c2 := rotl64 c1 32
  ⟨a2, b1, c2, d1⟩

/-- Little-endian value of a byte list (fewer than 8 bytes are the
zero-padded tail block). -/
def le64 (bs : List Nat) : Nat := bs.foldr (fun b acc => b + 256 * acc) 0

/-- The main compression loop over full 8-byte blocks. -/
def sipLoop : Nat → Sip → List Nat → Sip × List Nat
  | 0, st, bs => (st, bs)
  | f + 1, st, bs =>
    if 8 ≤ bs.length then
      let mi := le64 (bs.take 8)
      let st1 := sipRound { st with v3 := Nat.xor st.v3 mi }
      sipLoop f { st1 with v0 := Nat.xor st1.v0 mi } (bs.drop 8)
    else (st, bs)

def siphash13 (k0 k1 : Nat) (bytes : List Nat) : Nat :=
  let st0 : Sip := ⟨Nat.xor k0 0x736f6d6570736575, Nat.xor k1 0x646f72616e646f6d,
    Nat.xor k0 0x6c7967656e657261, Nat.xor k1 0x7465646279746573⟩
  let p := sipLoop bytes.length st0 bytes
  let b := w64 (bytes.length * 2 ^ 56) + le64 p.2
  let st1 := sipRound { p.1 with v3 := Nat.xor p.1.v3 b }
  let st2 := { st1 with v0 := Nat.xor st1.v0 b, v2 := Nat.xor st1.v2 255 }
  let st3 := sipRound (sipRound (sipRound st2))
  Nat.xor (Nat.xor st3.v0 st3.v1) (Nat.xor st3.v2 st3.v3)

def toSigned64 (n : Nat) : Int :=
  if n < 9223372036854775808 then (n : Int) else (n : Int) - 18446744073709551616

/-- hash(s) for a str: 0 for the empty string, otherwise the signed
64-bit siphash13 value, with -1 mapped to -2 (_Py_HashBytes). -/
def pythonStrHash (k0 k1 : Nat) (s : String) : Int :=
  let bytes := s.data.map Char.toNat
  if bytes.length = 0 then 0
  else
    let x := toSigned64 (siphash13 k0 k1 bytes)
    if x = -1 then -2 else x

/-- The seed handed to numpy.random.RandomState by
_generate_simple_embedding.  RandomState's legacy integer seeding raises
ValueError unless 0 <= seed < 2 ** 32, so the call only survives when the
64-bit hash happens to land in that range; none models the raise. -/
def simpleEmbeddingSeed (k0 k1 : Nat) (text : String) : Option Int :=
  let h := pythonStrHash k0 k1 text
  if 0 ≤ h ∧ h < 4294967296 then some h else none

/- ### embeddings.py: calculate_similarity

np.dot(v1, v2) / (norm(v1) * norm(v2)) over float vectors.  With exact
rational components the cosine is d / sqrt(s1 * s2); the denominator is
zero exactly when some vector has zero magnitude, and then the numerator
is zero too, so numpy produces 0.0/0.0 = nan (plus a RuntimeWarning) and
returns it — no exception is raised.  `SimResult.fin d s` carries the
exact numerator and squared denominator so comparisons can be decided
exactly; `SimResult.nan` is the IEEE nan, whose comparisons with
everything are false. -/

def sumsq (v : List Rat) : Rat := v.foldl (fun a q => a + q * q) 0

def dotProd (v1 v2 : List Rat) : Rat :=
  (List.zipWith (fun a b => a * b) v1 v2).foldl (fun a q => a + q) 0

inductive SimResult where
  | nan : SimResult
  | fin : Rat → Rat → SimResult
deriving DecidableEq

def calculate_similarity (v1 v2 : List Rat) : SimResult :=
  let d := dotProd v1 v2
  let s := sumsq v1 * sumsq v2
  if s = 0 then .nan else .fin d s

/-- Exact float comparison a < b on similarity values
(a = d1 / sqrt s1, b = d2 / sqrt s2 with s1, s2 > 0); any comparison
with nan is false, as for IEEE floats. -/
def simLt : SimResult → SimResult → Bool
  | .nan, _ => false
  | _, .nan => false
  | .fin d1 s1, .fin d2 s2 =>
    if d1 < 0 then
      if 0 ≤ d2 then true
      else decide (d2 * d2 * s1 < d1 * d1 * s2)
    else
      if d2 ≤ 0 then false
      else decide (d1 * d1 * s2 < d2 * d2 * s1)

/- ### core.py: MemorySystem

The four in-memory indices plus the storage table; dicts are
insertion-ordered association lists with CPython update semantics. -/

/-- [self.semantic_index[mid] for mid in memory_ids]: KeyError (none)
if any id is missing. -/
def lookupAll (sem : List (String × Memory)) : List String → Option (List Memory)
  | [] => some []
  | mid :: rest =>
    (alookup mid sem).bind (fun m => (lookupAll sem rest).map (fun ms => m :: ms))

structure MemState where
  semantic_index : List (String × Memory)
  temporal_index : List String
  importance_index : List String
  type_index : List (String × List String)
  storage : List MemRow
deriving DecidableEq

def initState : MemState := ⟨[], [], [], [], []⟩

/-- self.semantic_index[mid].experience.importance; a missing id would
raise KeyError in Python, but every caller passes an id it just inserted
or that the loop found in the index, so the default is never read. -/
def impOf (sem : List (String × Memory)) (mid : String) : Rat :=
  ((alookup mid sem).map (fun m => m.experience.importance)).getD 0

/-- Generic insert of x in front of the first element strictly below it
(by key): exactly the scan-and-insert loop of
_insert_sorted_by_importance, and the step of a stable descending sort. -/
def insertDescBy {α β : Type} (key : α → β) (blt : β → β → Bool) (x : α) :
    List α → List α
  | [] => [x]
  | y :: ys => if blt (key y) (key x) then x :: y :: ys
    else y :: insertDescBy key blt x ys

/-- Stable descending sort by key: the result of Python's stable
list.sort(key=key, reverse=True) whenever blt is a strict total order on
the keys (stability plus sortedness determine the output uniquely), and
also exact for all-nan keys where every comparison is false (the list is
left untouched, as timsort does). -/
def pySortDesc {α β : Type} (key : α → β) (blt : β → β → Bool)
    (l : List α) : List α :=
  l.foldl (fun acc x => insertDescBy key blt x acc) []

def insert_sorted_by_importance (sem : List (String × Memory))
    (idx : List String) (mid : String) : List String :=
  insertDescBy (impOf sem) (fun a b => decide (a < b)) mid idx

/-- The arguments of one record_experience call together with the values
the call draws from its environment: the uuid4 id and datetime.now
timestamps of the Experience/Memory default factories and the embedding
returned by the embedding manager. -/
structure RecordArgs where
  type : String
  content : PyValue
  metadata : PyValue
  tags : List String
  importance : Rat
  context : PyValue
  id : String
  timestamp : String
  lastAccessed : String
  embedding : List Rat
deriving DecidableEq

def mkExperience (a : RecordArgs) : Experience where
  id := a.id
  timestamp := a.timestamp
  type := a.type
  content := a.content
  metadata := a.metadata
  tags := a.tags
  importance := a.importance
  context := a.context
  relationships := []

def mkMemory (a : RecordArgs) : Memory where
  experience := mkExperience a
  embedding := a.embedding
  last_accessed := a.lastAccessed
  access_count := 0
  emotional_valence := 0
  confidence := 1

/-- The type-bucket update of record_experience: create the bucket if the
type is new (appended at the end of the dict), then insert(0, id). -/
def typeBucketInsert (ti : List (String × List String)) (ty mid : String) :
    List (String × List String) :=
  let ti1 := if (alookup ty ti).isSome then ti else ti ++ [(ty, [])]
  dictSet ty (mid :: (alookup ty ti1).getD []) ti1

/-- The index updates of record_experience, in source order: semantic map
first, then temporal insert(0), then the importance insert (which reads
the importance through the already-updated semantic map), then the type
bucket.  These all happen before the storage write. -/
def recordIndex (s : MemState) (a : RecordArgs) : MemState :=
  let sem := dictSet a.id (mkMemory a) s.semantic_index
  { s with
    semantic_index := sem
    temporal_index := a.id :: s.temporal_index
    importance_index := insert_sorted_by_importance sem s.importance_index a.id
    type_index := typeBucketInsert s.type_index a.type a.id }

inductive RecordOutcome where
  | ok : MemState → Experience → RecordOutcome
  | storageError : MemState → RecordOutcome
deriving DecidableEq

/-- record_experience: update the four indices, then persist.  There is
no try/except around storage.store_memory: storeOk = false models the
SQLite write raising, and the raw exception propagates after the index
updates have already happened. -/
def record_experience (s : MemState) (a : RecordArgs) (storeOk : Bool) :
    RecordOutcome :=
  let s1 := recordIndex s a
  if storeOk then
    .ok { s1 with storage := store_memory s1.storage (mkMemory a) }
      (mkExperience a)
  else .storageError s1

/-- recall_recent.  The filter is tested with Python truthiness
(if type:), so both None and the empty string select the temporal index;
a non-empty type reads its bucket, defaulting to [] for an unknown type.
Each returned memory gets an update_access storage write. -/
def recall_recent (s : MemState) (limit : Nat) (ty : Option String)
    (nowTs : String) : Option (List Memory × MemState) :=
  let ids := match ty with
    | some t =>
      if t = "" then s.temporal_index.take limit
      else ((alookup t s.type_index).getD []).take limit
    | none => s.temporal_index.take limit
  (lookupAll s.semantic_index ids).map (fun mems =>
    let rows2 := mems.foldl
      (fun rows m => update_access rows m.experience.id nowTs) s.storage
    (mems, { s with storage := rows2 }))

def recall_important (s : MemState) (limit : Nat) (nowTs : String) :
    Option (List Memory × MemState) :=
  (lookupAll s.semantic_index (s.importance_index.take limit)).map
    (fun mems =>
    let rows2 := mems.foldl
      (fun rows m => update_access rows m.experience.id nowTs) s.storage
    (mems, { s with storage := rows2 }))

/-- recall_similar: score every memory in the semantic index against the
query embedding, sort descending by similarity (stable), truncate, and
update access stats on the returned memories. -/
def recall_similar (s : MemState) (queryEmb : List Rat) (limit : Nat)
    (nowTs : String) : List Memory × MemState :=
  let sims := s.semantic_index.map
    (fun p => (calculate_similarity queryEmb p.2.embedding, p.2))
  let mems := ((pySortDesc Prod.fst simLt sims).take limit).map Prod.snd
  let rows2 := mems.foldl
    (fun rows m => update_access rows m.experience.id nowTs) s.storage
  (mems, { s with storage := rows2 })

/-- The type-bucket update of load_memories: create if new, then append
(note: append at the end, unlike record_experience's insert(0)). -/
def typeBucketAppend (ti : List (String × List String)) (ty mid : String) :
    List (String × List String) :=
  let ti1 := if (alookup ty ti).isSome then ti else ti ++ [(ty, [])]
  dictSet ty ((alookup ty ti1).getD [] ++ [mid]) ti1

/-- self.semantic_index[mid].experience.timestamp for the sort keys. -/
def tsOf (sem : List (String × Memory)) (mid : String) : String :=
  ((alookup mid sem).map (fun m => m.experience.timestamp)).getD ""

/-- The rebuild loop body of load_memories, for one loaded memory:
semantic map entry, temporal append, importance insert, type-bucket
append. -/
def loadStep (st : MemState) (m : Memory) : MemState :=
  let sem := dictSet m.experience.id m st.semantic_index
  { st with
    semantic_index := sem
    temporal_index := st.temporal_index ++ [m.experience.id]
    importance_index :=
      insert_sorted_by_importance sem st.importance_index m.experience.id
    type_index :=
      typeBucketAppend st.type_index m.experience.type m.experience.id }

/-- The index reset at the top of load_memories (the four .clear()
calls). -/
def clearIndices (s : MemState) : MemState :=
  { s with semantic_index := []
           temporal_index := []
           importance_index := []
           type_index := [] }

/-- The state load_memories rebuilds from the loaded rows: indices
cleared, rebuilt in storage scan order, then the temporal index and every
type bucket stably sorted by timestamp descending. -/
def rebuildState (s : MemState) (mems : List Memory) : MemState :=
  { mems.foldl loadStep (clearIndices s) with
    temporal_index :=
      pySortDesc (tsOf (mems.foldl loadStep (clearIndices s)).semantic_index)
        pyStrLt (mems.foldl loadStep (clearIndices s)).temporal_index
    type_index :=
      (mems.foldl loadStep (clearIndices s)).type_index.map (fun p =>
        (p.1, pySortDesc
          (tsOf (mems.foldl loadStep (clearIndices s)).semantic_index)
          pyStrLt p.2)) }

/-- load_memories: load every row, clear all four indices, rebuild them
in storage scan order, then stably sort the temporal index and every type
bucket by timestamp descending.  There is no tie-break beyond the
stable-sort input order. -/
def load_memories (s : MemState) : Option MemState :=
  (load_all_memories s.storage).map (rebuildState s)

/-- The setdefault step of connect_memories: if relationship is not in
source.relationships, bind it to a fresh empty list (appended at the end
of the dict). -/
def relsEnsure (rels : List (String × List String)) (rel : String) :
    List (String × List String) :=
  if (alookup rel rels).isSome then rels else rels ++ [(rel, [])]

/-- The relationship-map update of connect_memories: setdefault-style
creation of the list for a new relationship name, then append of the
target id if absent. -/
def updRels (rels : List (String × List String)) (tgtId rel : String) :
    List (String × List String) :=
  if tgtId ∈ (alookup rel (relsEnsure rels rel)).getD []
  then relsEnsure rels rel
  else dictSet rel ((alookup rel (relsEnsure rels rel)).getD [] ++ [tgtId])
    (relsEnsure rels rel)

/-- The source Memory after connect_memories mutated its Experience's
relationships in place. -/
def updMem (src : Memory) (tgtId rel : String) : Memory :=
  { src with experience :=
      { src.experience with
          relationships := updRels src.experience.relationships tgtId rel } }

/-- The state after a successful connect: the source memory is replaced
in place in the semantic map, and the updated memory is persisted. -/
def connectResult (s : MemState) (src : Memory) (srcId tgtId rel : String) :
    MemState :=
  { s with
    semantic_index := dictSet srcId (updMem src tgtId rel) s.semantic_index
    storage := store_memory s.storage (updMem src tgtId rel) }

/-- connect_memories: KeyError (none) when either id is missing from the
semantic index; otherwise setdefault-style creation of the relationship
list, append of the target id if absent, and a store_memory of the
updated source memory.  The Experience object is mutated in place, so the
semantic map entry changes with it (same position). -/
def connect_memories (s : MemState) (srcId tgtId rel : String) :
    Option MemState :=
  (alookup srcId s.semantic_index).bind (fun src =>
  (alookup tgtId s.semantic_index).bind (fun _ =>
  some (connectResult s src srcId tgtId rel)))

/-- A trace of successful record_experience calls from a fresh system. -/
def applyRecord (s : MemState) (a : RecordArgs) : MemState :=
  match record_experience s a true with
  | .ok s2 _ => s2
  | .storageError s2 => s2

def runTrace (l : List RecordArgs) : MemState := l.foldl applyRecord initState

/- ### Generic facts about the stable descending insertion

insertDescBy key blt inserts in front of the first strictly smaller
element; pySortDesc folds it over the input.  With blt asymmetric and
transitive the result is sorted (no later element is strictly greater)
and stable: any two equal-key output elements occur in input order
([a, b] is a sublist of the input). -/

theorem bool_eq_false {b : Bool} (h : ¬ (b = true)) : b = false := by
  cases b
  · rfl
  · exact absurd rfl h

theorem mem_insertDescBy {α β : Type} (key : α → β) (blt : β → β → Bool)
    (x : α) : ∀ (l : List α) (z : α),
    z ∈ insertDescBy key blt x l ↔ z = x ∨ z ∈ l
  | [], z => by simp [insertDescBy]
  | y :: ys, z => by
    rw [insertDescBy]
    split
    · simp [List.mem_cons]
    · simp only [List.mem_cons, mem_insertDescBy key blt x ys z]
      tauto

theorem insertDescBy_perm {α β : Type} (key : α → β) (blt : β → β → Bool)
    (x : α) : ∀ l : List α, (insertDescBy key blt x l).Perm (x :: l)
  | [] => List.Perm.refl _
  | y :: ys => by
    rw [insertDescBy]
    split
    · exact List.Perm.refl _
    · exact ((insertDescBy_perm key blt x ys).cons y).trans
        (List.Perm.swap x y ys)

theorem pySortDesc_perm_aux {α β : Type} (key : α → β) (blt : β → β → Bool) :
    ∀ (l acc : List α),
    (l.foldl (fun acc x => insertDescBy key blt x acc) acc).Perm (acc ++ l)
  | [], acc => by simp
  | x :: xs, acc => by
    rw [List.foldl_cons]
    refine (pySortDesc_perm_aux key blt xs
      (insertDescBy key blt x acc)).trans ?h
    refine ((insertDescBy_perm key blt x acc).append_right xs).trans ?h2
    rw [List.cons_append]
    exact List.perm_middle.symm

theorem pySortDesc_perm {α β : Type} (key : α → β) (blt : β → β → Bool)
    (l : List α) : (pySortDesc key blt l).Perm l := by
  simpa using pySortDesc_perm_aux key blt l []

theorem insertDescBy_pairwise {α β : Type} (key : α → β) (blt : β → β → Bool)
    (hA : ∀ a b, blt a b = true → blt b a = false)
    (hT : ∀ a b c, blt a b = true → blt b c = true → blt a c = true)
    (p : List α) (x : α) :
    ∀ l : List α, (∀ z ∈ l, z ∈ p) →
    l.Pairwise (fun a b => blt (key a) (key b) = false ∧
      (key a = key b → [a, b].Sublist p)) →
    (insertDescBy key blt x l).Pairwise (fun a b =>
      blt (key a) (key b) = false ∧
      (key a = key b → [a, b].Sublist (p ++ [x])))
  | [], _, _ => by simp [insertDescBy]
  | y :: ys, hmem, hpw => by
    rw [List.pairwise_cons] at hpw
    obtain ⟨hy, hys⟩ := hpw
    rw [insertDescBy]
    split
    case isTrue hxy =>
      rw [List.pairwise_cons]
      refine ⟨?hx, ?hrest⟩
      case hx =>
        intro z hz
        rcases List.mem_cons.mp hz with hz | hz
        · rw [hz]
          refine ⟨hA _ _ hxy, fun he => ?_⟩
          rw [he] at hxy
          have hf := hA _ _ hxy
          rw [hf] at hxy
          exact Bool.noConfusion hxy
        · have h1 := (hy z hz).1
          refine ⟨?o1, ?o2⟩
          case o1 =>
            refine bool_eq_false (fun hxz => ?_)
            rw [hT _ _ _ hxy hxz] at h1
            exact Bool.noConfusion h1
          case o2 =>
            intro he
            rw [he] at hxy
            rw [hxy] at h1
            exact Bool.noConfusion h1
      case hrest =>
        refine List.Pairwise.imp ?mono (List.pairwise_cons.mpr ⟨hy, hys⟩)
        intro a b hab
        exact ⟨hab.1, fun he => (hab.2 he).trans (List.sublist_append_left p [x])⟩
    case isFalse hxy =>
      rw [List.pairwise_cons]
      refine ⟨?hy2, ?htail⟩
      case hy2 =>
        intro z hz
        rcases (mem_insertDescBy key blt x ys z).mp hz with hz | hz
        · rw [hz]
          refine ⟨bool_eq_false hxy, fun _ => ?_⟩
          have hyp : y ∈ p := hmem y (List.mem_cons_self y ys)
          exact List.Sublist.append (List.singleton_sublist.mpr hyp)
            (List.Sublist.refl [x])
        · exact ⟨(hy z hz).1, fun he =>
            ((hy z hz).2 he).trans (List.sublist_append_left p [x])⟩
      case htail =>
        exact insertDescBy_pairwise key blt hA hT p x ys
          (fun z hz => hmem z (List.mem_cons_of_mem y hz)) hys

theorem pySortDesc_pairwise_aux {α β : Type} (key : α → β)
    (blt : β → β → Bool)
    (hA : ∀ a b, blt a b = true → blt b a = false)
    (hT : ∀ a b c, blt a b = true → blt b c = true → blt a c = true) :
    ∀ (l acc p : List α), (∀ z ∈ acc, z ∈ p) →
    acc.Pairwise (fun a b => blt (key a) (key b) = false ∧
      (key a = key b → [a, b].Sublist p)) →
    (l.foldl (fun acc x => insertDescBy key blt x acc) acc).Pairwise
      (fun a b => blt (key a) (key b) = false ∧
        (key a = key b → [a, b].Sublist (p ++ l)))
  | [], acc, p, _, hpw => by simpa using hpw
  | x :: xs, acc, p, hmem, hpw => by
    rw [List.foldl_cons]
    have h1 := insertDescBy_pairwise key blt hA hT p x acc hmem hpw
    have hmem1 : ∀ z ∈ insertDescBy key blt x acc, z ∈ p ++ [x] := by
      intro z hz
      rcases (mem_insertDescBy key blt x acc z).mp hz with hz | hz
      · rw [hz]
        exact List.mem_append_right p (List.mem_singleton.mpr rfl)
      · exact List.mem_append_left [x] (hmem z hz)
    have h2 := pySortDesc_pairwise_aux key blt hA hT xs
      (insertDescBy key blt x acc) (p ++ [x]) hmem1 h1
    simpa [List.append_assoc] using h2

theorem pySortDesc_pairwise {α β : Type} (key : α → β) (blt : β → β → Bool)
    (hA : ∀ a b, blt a b = true → blt b a = false)
    (hT : ∀ a b c, blt a b = true → blt b c = true → blt a c = true)
    (l : List α) :
    (pySortDesc key blt l).Pairwise (fun a b =>
      blt (key a) (key b) = false ∧ (key a = key b → [a, b].Sublist l)) := by
  have := pySortDesc_pairwise_aux key blt hA hT l [] [] (by simp) (by simp)
  simpa using this

theorem insertDescBy_all_false {α β : Type} (key : α → β)
    (blt : β → β → Bool) (x : α) :
    ∀ l : List α, (∀ y ∈ l, blt (key y) (key x) = false) →
    insertDescBy key blt x l = l ++ [x]
  | [], _ => rfl
  | y :: ys, h => by
    rw [insertDescBy]
    rw [if_neg (by rw [h y (List.mem_cons_self y ys)]; exact Bool.noConfusion)]
    rw [insertDescBy_all_false key blt x ys
      (fun z hz => h z (List.mem_cons_of_mem y hz))]
    rfl

theorem pySortDesc_all_false_aux {α β : Type} (key : α → β)
    (blt : β → β → Bool) :
    ∀ (l acc : List α), (∀ x ∈ l, ∀ y, blt (key y) (key x) = false) →
    l.foldl (fun acc x => insertDescBy key blt x acc) acc = acc ++ l
  | [], acc, _ => by simp
  | x :: xs, acc, h => by
    rw [List.foldl_cons]
    rw [insertDescBy_all_false key blt x acc
      (fun y _ => h x (List.mem_cons_self x xs) y)]
    rw [pySortDesc_all_false_aux key blt xs (acc ++ [x])
      (fun z hz y => h z (List.mem_cons_of_mem x hz) y)]
    simp

theorem pySortDesc_all_false {α β : Type} (key : α → β)
    (blt : β → β → Bool) (l : List α)
    (h : ∀ x ∈ l, ∀ y, blt (key y) (key x) = false) :
    pySortDesc key blt l = l := by
  have := pySortDesc_all_false_aux key blt l [] h
  simpa using this

/- ### Characterisation of record_experience traces -/

theorem applyRecord_temporal (s : MemState) (a : RecordArgs) :
    (applyRecord s a).temporal_index = a.id :: s.temporal_index := rfl

theorem applyRecord_sem (s : MemState) (a : RecordArgs) :
    (applyRecord s a).semantic_index =
      dictSet a.id (mkMemory a) s.semantic_index := rfl

theorem applyRecord_imp (s : MemState) (a : RecordArgs) :
    (applyRecord s a).importance_index =
      insert_sorted_by_importance (dictSet a.id (mkMemory a) s.semantic_index)
        s.importance_index a.id := rfl

theorem applyRecord_type (s : MemState) (a : RecordArgs) :
    (applyRecord s a).type_index = typeBucketInsert s.type_index a.type a.id :=
  rfl

theorem applyRecord_storage (s : MemState) (a : RecordArgs) :
    (applyRecord s a).storage = store_memory s.storage (mkMemory a) := rfl

theorem alookup_append_of_none {α : Type} (k : String) :
    ∀ (l1 l2 : List (String × α)), alookup k l1 = none →
    alookup k (l1 ++ l2) = alookup k l2
  | [], _, _ => rfl
  | (k1, v) :: rest, l2, h => by
    rw [alookup] at h
    by_cases h1 : k1 = k
    · rw [h1] at h
      simp at h
    · rw [if_neg h1] at h
      rw [List.cons_append, alookup, if_neg h1]
      exact alookup_append_of_none k rest l2 h

theorem alookup_append_of_some {α : Type} (k : String) (v : α) :
    ∀ (l1 l2 : List (String × α)), alookup k l1 = some v →
    alookup k (l1 ++ l2) = some v
  | [], _, h => by rw [alookup] at h; exact Option.noConfusion h
  | (k1, v1) :: rest, l2, h => by
    rw [alookup] at h
    by_cases h1 : k1 = k
    · rw [if_pos h1] at h
      rw [List.cons_append, alookup, if_pos h1]
      exact h
    · rw [if_neg h1] at h
      rw [List.cons_append, alookup, if_neg h1]
      exact alookup_append_of_some k v rest l2 h

theorem dictSet_fresh {α : Type} (k : String) (v : α) :
    ∀ l : List (String × α), alookup k l = none →
    dictSet k v l = l ++ [(k, v)]
  | [], _ => rfl
  | (k1, v1) :: rest, h => by
    rw [alookup] at h
    by_cases h1 : k1 = k
    · rw [h1] at h
      simp at h
    · rw [if_neg h1] at h
      rw [dictSet, if_neg h1, dictSet_fresh k v rest h, List.cons_append]

theorem typeBucketInsert_self (ti : List (String × List String))
    (ty mid : String) :
    alookup ty (typeBucketInsert ti ty mid) =
      some (mid :: (alookup ty ti).getD []) := by
  rw [typeBucketInsert]
  by_cases h : (alookup ty ti).isSome
  · simp only [h, if_pos]
    rw [alookup_dictSet_self]
  · simp only [h, Bool.false_eq_true, if_neg, not_false_iff]
    rw [alookup_dictSet_self]
    have hn : alookup ty ti = none := Option.not_isSome_iff_eq_none.mp
      (fun hh => h hh)
    rw [alookup_append_of_none ty ti [(ty, [])] hn, alookup, if_pos rfl, hn]
    rfl

theorem typeBucketInsert_other (ti : List (String × List String))
    (ty mid t : String) (h : t ≠ ty) :
    alookup t (typeBucketInsert ti ty mid) = alookup t ti := by
  rw [typeBucketInsert]
  by_cases h1 : (alookup ty ti).isSome
  · simp only [h1, if_pos]
    exact alookup_dictSet_other _ _ (Ne.symm h)
  · simp only [h1, Bool.false_eq_true, if_neg, not_false_iff]
    rw [alookup_dictSet_other _ _ (Ne.symm h)]
    have hn : alookup ty ti = none := Option.not_isSome_iff_eq_none.mp
      (fun hh => h1 hh)
    cases hv : alookup t ti with
    | some v => exact alookup_append_of_some t v ti [(ty, [])] hv
    | none =>
      rw [alookup_append_of_none t ti [(ty, [])] hv, alookup,
        if_neg (Ne.symm h)]
      rfl

theorem trace_temporal : ∀ (l : List RecordArgs) (s : MemState),
    (l.foldl applyRecord s).temporal_index =
      (l.map (fun a => a.id)).reverse ++ s.temporal_index
  | [], s => by simp
  | a :: l, s => by
    rw [List.foldl_cons, trace_temporal l (applyRecord s a),
      applyRecord_temporal]
    simp

theorem trace_sem_preserved : ∀ (l : List RecordArgs) (s : MemState)
    (k : String), k ∉ l.map (fun a => a.id) →
    alookup k (l.foldl applyRecord s).semantic_index =
      alookup k s.semantic_index
  | [], _, _, _ => rfl
  | a :: l, s, k, h => by
    rw [List.map_cons, List.mem_cons] at h
    push_neg at h
    rw [List.foldl_cons, trace_sem_preserved l _ k h.2, applyRecord_sem,
      alookup_dictSet_other _ _ (Ne.symm h.1)]

theorem trace_sem_lookup : ∀ (l : List RecordArgs) (s : MemState),
    (l.map (fun a => a.id)).Nodup →
    ∀ a ∈ l, alookup a.id (l.foldl applyRecord s).semantic_index =
      some (mkMemory a)
  | [], _, _, a, ha => absurd ha (List.not_mem_nil a)
  | b :: l, s, hnd, a, ha => by
    rw [List.map_cons, List.nodup_cons] at hnd
    rcases List.mem_cons.mp ha with ha | ha
    · rw [ha, List.foldl_cons, trace_sem_preserved l _ b.id hnd.1,
        applyRecord_sem, alookup_dictSet_self]
    · rw [List.foldl_cons]
      exact trace_sem_lookup l _ hnd.2 a ha

theorem trace_bucket : ∀ (l : List RecordArgs) (s : MemState) (t : String),
    (alookup t (l.foldl applyRecord s).type_index).getD [] =
      ((l.filter (fun a => decide (a.type = t))).map (fun a => a.id)).reverse
        ++ (alookup t s.type_index).getD []
  | [], s, t => by simp
  | a :: l, s, t => by
    rw [List.foldl_cons, trace_bucket l _ t, applyRecord_type]
    by_cases h : a.type = t
    · rw [List.filter_cons_of_pos (by rw [h]; exact decide_eq_true rfl)]
      rw [← h, typeBucketInsert_self]
      simp
    · rw [List.filter_cons_of_neg (by simp [h])]
      rw [typeBucketInsert_other _ _ _ _ (fun he => h he.symm)]

theorem trace_imp_members : ∀ (l : List RecordArgs) (s : MemState),
    ∀ mid ∈ (l.foldl applyRecord s).importance_index,
      mid ∈ l.map (fun a => a.id) ∨ mid ∈ s.importance_index
  | [], _, _, h => .inr h
  | a :: l, s, mid, h => by
    rw [List.foldl_cons] at h
    rcases trace_imp_members l _ mid h with h1 | h1
    · exact .inl (List.mem_cons_of_mem _ h1)
    · rw [applyRecord_imp, insert_sorted_by_importance] at h1
      rcases (mem_insertDescBy _ _ _ _ _).mp h1 with h2 | h2
      · exact .inl (by rw [h2]; exact List.mem_cons_self _ _)
      · exact .inr h2

theorem lookupAll_map_id : ∀ (ds : List RecordArgs)
    (sem : List (String × Memory)),
    (∀ a ∈ ds, alookup a.id sem = some (mkMemory a)) →
    lookupAll sem (ds.map (fun a => a.id)) = some (ds.map mkMemory)
  | [], _, _ => rfl
  | a :: ds, sem, h => by
    rw [List.map_cons, lookupAll, h a (List.mem_cons_self a ds),
      Option.some_bind,
      lookupAll_map_id ds sem (fun b hb => h b (List.mem_cons_of_mem a hb))]
    rfl

theorem decodeAll_append : ∀ (l1 l2 : List MemRow),
    decodeAll (l1 ++ l2) =
      (decodeAll l1).bind (fun a => (decodeAll l2).map (fun b => a ++ b))
  | [], l2 => by
    cases h : decodeAll l2 with
    | none => simp [decodeAll, h]
    | some b => simp [decodeAll, h]
  | r :: rest, l2 => by
    rw [List.cons_append, decodeAll, decodeAll_append rest l2, decodeAll]
    cases memoryOfRow r with
    | none => rfl
    | some m =>
      rw [Option.some_bind, Option.some_bind]
      cases decodeAll rest with
      | none => rfl
      | some a =>
        rw [Option.some_bind]
        cases decodeAll l2 with
        | none => rfl
        | some b => rfl

/- The importance index along a trace of records with pairwise-distinct
ids: sorted by importance descending, and equal-importance entries occur
in record order (any two of them form a sublist of the trace ids). -/

theorem pairwise_congr_mem {α : Type} {R S : α → α → Prop} :
    ∀ (l : List α), (∀ a ∈ l, ∀ b ∈ l, R a b → S a b) →
    l.Pairwise R → l.Pairwise S
  | [], _, _ => List.Pairwise.nil
  | x :: xs, h, hpw => by
    rw [List.pairwise_cons] at hpw ⊢
    refine ⟨fun b hb => h x (List.mem_cons_self x xs) b
      (List.mem_cons_of_mem x hb) (hpw.1 b hb), ?tail⟩
    exact pairwise_congr_mem xs
      (fun a ha b hb hr =>
        h a (List.mem_cons_of_mem x ha) b (List.mem_cons_of_mem x hb) hr)
      hpw.2

theorem trace_imp_pairwise : ∀ (rest done : List RecordArgs),
    ((done ++ rest).map (fun a => a.id)).Nodup →
    ((done.foldl applyRecord initState).importance_index).Pairwise
      (fun m1 m2 =>
        decide (impOf (done.foldl applyRecord initState).semantic_index m1 <
          impOf (done.foldl applyRecord initState).semantic_index m2) = false ∧
        (impOf (done.foldl applyRecord initState).semantic_index m1 =
          impOf (done.foldl applyRecord initState).semantic_index m2 →
          [m1, m2].Sublist (done.map (fun a => a.id)))) →
    (((done ++ rest).foldl applyRecord initState).importance_index).Pairwise
      (fun m1 m2 =>
        decide (impOf ((done ++ rest).foldl applyRecord
            initState).semantic_index m1 <
          impOf ((done ++ rest).foldl applyRecord
            initState).semantic_index m2) = false ∧
        (impOf ((done ++ rest).foldl applyRecord initState).semantic_index m1 =
          impOf ((done ++ rest).foldl applyRecord initState).semantic_index m2 →
          [m1, m2].Sublist ((done ++ rest).map (fun a => a.id))))
  | [], done, _, hpw => by simpa using hpw
  | a :: rest, done, hnd, hpw => by
    have hA : ∀ x y : Rat, decide (x < y) = true → decide (y < x) = false :=
      fun x y h => decide_eq_false (lt_asymm (of_decide_eq_true h))
    have hT : ∀ x y z : Rat, decide (x < y) = true → decide (y < z) = true →
        decide (x < z) = true :=
      fun x y z h1 h2 =>
        decide_eq_true (lt_trans (of_decide_eq_true h1) (of_decide_eq_true h2))
    have hfresh : a.id ∉ done.map (fun a => a.id) := by
      rw [List.map_append] at hnd
      rcases List.nodup_append.mp hnd with ⟨-, -, hdisj⟩
      exact fun hin => hdisj hin
        (by rw [List.map_cons]; exact List.mem_cons_self _ _)
    have hmem : ∀ z ∈ (done.foldl applyRecord initState).importance_index,
        z ∈ done.map (fun a => a.id) := by
      intro z hz
      rcases trace_imp_members done initState z hz with h | h
      · exact h
      · exact absurd h (List.not_mem_nil z)
    have hkey : ∀ m ∈ (done.foldl applyRecord initState).importance_index,
        impOf (dictSet a.id (mkMemory a)
          (done.foldl applyRecord initState).semantic_index) m =
        impOf (done.foldl applyRecord initState).semantic_index m := by
      intro m hm
      have hne : a.id ≠ m := fun he => hfresh (he ▸ hmem m hm)
      rw [impOf, impOf, alookup_dictSet_other _ _ hne]
    have hpw2 : ((done.foldl applyRecord initState).importance_index).Pairwise
        (fun m1 m2 =>
          decide (impOf (dictSet a.id (mkMemory a)
              (done.foldl applyRecord initState).semantic_index) m1 <
            impOf (dictSet a.id (mkMemory a)
              (done.foldl applyRecord initState).semantic_index) m2) = false ∧
          (impOf (dictSet a.id (mkMemory a)
              (done.foldl applyRecord initState).semantic_index) m1 =
            impOf (dictSet a.id (mkMemory a)
              (done.foldl applyRecord initState).semantic_index) m2 →
            [m1, m2].Sublist (done.map (fun a => a.id)))) := by
      exact pairwise_congr_mem _
        (fun m1 h1 m2 h2 hr => by rw [hkey m1 h1, hkey m2 h2]; exact hr) hpw
    have hins := insertDescBy_pairwise
      (impOf (dictSet a.id (mkMemory a)
        (done.foldl applyRecord initState).semantic_index))
      (fun x y => decide (x < y)) hA hT (done.map (fun a => a.id)) a.id
      (done.foldl applyRecord initState).importance_index hmem hpw2
    have hfold : (done ++ [a]).foldl applyRecord initState =
        applyRecord (done.foldl applyRecord initState) a := by
      rw [List.foldl_append]
      rfl
    have hstep : (((done ++ [a]).foldl applyRecord
        initState).importance_index).Pairwise
      (fun m1 m2 =>
        decide (impOf ((done ++ [a]).foldl applyRecord
            initState).semantic_index m1 <
          impOf ((done ++ [a]).foldl applyRecord
            initState).semantic_index m2) = false ∧
        (impOf ((done ++ [a]).foldl applyRecord initState).semantic_index m1 =
          impOf ((done ++ [a]).foldl applyRecord initState).semantic_index m2 →
          [m1, m2].Sublist ((done ++ [a]).map (fun a => a.id)))) := by
      rw [hfold, applyRecord_imp, applyRecord_sem]
      simp only [List.map_append, List.map_cons, List.map_nil]
      exact hins
    have hndr : (((done ++ [a]) ++ rest).map (fun a => a.id)).Nodup := by
      rw [List.append_assoc]
      simpa using hnd
    have hrec := trace_imp_pairwise rest (done ++ [a]) hndr hstep
    rw [List.append_assoc] at hrec
    simpa using hrec

theorem trace_imp_sorted (l : List RecordArgs)
    (hnd : (l.map (fun a => a.id)).Nodup) :
    ((runTrace l).importance_index).Pairwise (fun m1 m2 =>
      decide (impOf (runTrace l).semantic_index m1 <
        impOf (runTrace l).semantic_index m2) = false ∧
      (impOf (runTrace l).semantic_index m1 =
        impOf (runTrace l).semantic_index m2 →
        [m1, m2].Sublist (l.map (fun a => a.id)))) := by
  have h0 : (([] : List RecordArgs).foldl applyRecord
      initState).importance_index = [] := rfl
  have := trace_imp_pairwise l [] (by simpa using hnd)
    (by rw [h0]; exact List.Pairwise.nil)
  simpa [runTrace] using this

/- ### Characterisation of the load_memories rebuild -/

theorem loadStep_temporal (st : MemState) (m : Memory) :
    (loadStep st m).temporal_index =
      st.temporal_index ++ [m.experience.id] := rfl

theorem loadStep_sem (st : MemState) (m : Memory) :
    (loadStep st m).semantic_index =
      dictSet m.experience.id m st.semantic_index := rfl

theorem load_temporal : ∀ (ms : List Memory) (st : MemState),
    (ms.foldl loadStep st).temporal_index =
      st.temporal_index ++ ms.map (fun m => m.experience.id)
  | [], st => by simp
  | m :: ms, st => by
    rw [List.foldl_cons, load_temporal ms (loadStep st m), loadStep_temporal]
    simp

theorem load_sem_preserved : ∀ (ms : List Memory) (st : MemState)
    (k : String), k ∉ ms.map (fun m => m.experience.id) →
    alookup k (ms.foldl loadStep st).semantic_index =
      alookup k st.semantic_index
  | [], _, _, _ => rfl
  | m :: ms, st, k, h => by
    rw [List.map_cons, List.mem_cons] at h
    push_neg at h
    rw [List.foldl_cons, load_sem_preserved ms _ k h.2, loadStep_sem,
      alookup_dictSet_other _ _ (Ne.symm h.1)]

theorem load_sem_lookup : ∀ (ms : List Memory) (st : MemState),
    (ms.map (fun m => m.experience.id)).Nodup →
    ∀ m ∈ ms, alookup m.experience.id (ms.foldl loadStep st).semantic_index =
      some m
  | [], _, _, m, hm => absurd hm (List.not_mem_nil m)
  | m0 :: ms, st, hnd, m, hm => by
    rw [List.map_cons, List.nodup_cons] at hnd
    rcases List.mem_cons.mp hm with hm | hm
    · rw [hm, List.foldl_cons,
        load_sem_preserved ms _ m0.experience.id hnd.1, loadStep_sem,
        alookup_dictSet_self]
    · rw [List.foldl_cons]
      exact load_sem_lookup ms _ hnd.2 m hm

/- ### The degenerate similarity path -/

theorem calculate_similarity_nan (v1 v2 : List Rat)
    (h : sumsq v1 = 0 ∨ sumsq v2 = 0) :
    calculate_similarity v1 v2 = .nan := by
  rw [calculate_similarity]
  rcases h with h | h
  · rw [if_pos (by rw [h, zero_mul])]
  · rw [if_pos (by rw [h, mul_zero])]

theorem simLt_nan_right : ∀ x : SimResult, simLt x .nan = false
  | .nan => rfl
  | .fin _ _ => rfl

theorem recall_similar_zero_query (s : MemState) (q : List Rat)
    (limit : Nat) (nowTs : String) (hq : sumsq q = 0) :
    (recall_similar s q limit nowTs).1 =
      ((s.semantic_index.map (fun p => p.2)).take limit) := by
  show ((pySortDesc Prod.fst simLt
      (s.semantic_index.map
        (fun p => (calculate_similarity q p.2.embedding, p.2)))).take
    limit).map Prod.snd = _
  rw [pySortDesc_all_false]
  · rw [← List.map_take, List.map_map]
    rw [List.map_take]
    rfl
  · intro x hx y
    rcases List.mem_map.mp hx with ⟨p, -, hp⟩
    have hnan : x.1 = .nan := by
      rw [← hp]
      exact calculate_similarity_nan q p.2.embedding (Or.inl hq)
    rw [hnan, simLt_nan_right]

/- ### Helper facts for connect_memories -/

theorem dictSet_dictSet {α : Type} (k : String) (v1 v2 : α) :
    ∀ l : List (String × α), dictSet k v2 (dictSet k v1 l) = dictSet k v2 l
  | [] => by simp [dictSet]
  | (k1, w) :: rest => by
    by_cases h : k1 = k
    · rw [dictSet, if_pos h, dictSet, if_pos rfl, dictSet, if_pos h]
    · rw [dictSet, if_neg h, dictSet, if_neg h, dictSet, if_neg h,
        dictSet_dictSet k v1 v2 rest]

theorem store_store (rows : List MemRow) (m : Memory) :
    store_memory (store_memory rows m) m = store_memory rows m := by
  rw [store_memory, store_memory, List.filter_append, List.filter_filter]
  have h1 : List.filter (fun r => !(r.id = m.experience.id : Bool))
      [rowOfMemory m] = [] := by
    rw [List.filter_cons_of_neg
      (by rw [show (rowOfMemory m).id = m.experience.id from rfl]; simp)]
    rfl
  rw [h1, List.append_nil]
  congr 1
  simp

theorem relsEnsure_lookup (rels : List (String × List String))
    (rel : String) :
    alookup rel (relsEnsure rels rel) = some ((alookup rel rels).getD []) := by
  rw [relsEnsure]
  cases h : alookup rel rels with
  | none =>
    rw [if_neg (show ¬ (none : Option (List String)).isSome = true by simp)]
    rw [alookup_append_of_none rel rels [(rel, [])] h, alookup, if_pos rfl]
    rfl
  | some lst =>
    rw [if_pos (show (some lst).isSome = true from rfl)]
    exact h

theorem updRels_lookup (rels : List (String × List String))
    (tgtId rel : String) :
    ∃ L, alookup rel (updRels rels tgtId rel) = some L ∧ tgtId ∈ L ∧
      (((alookup rel rels).getD []).count tgtId ≤ 1 → L.count tgtId = 1) := by
  rw [updRels, relsEnsure_lookup]
  by_cases hmem : tgtId ∈ ((alookup rel rels).getD [] : List String)
  · rw [if_pos (show tgtId ∈ (some ((alookup rel rels).getD [])).getD []
      from hmem)]
    refine ⟨(alookup rel rels).getD [], relsEnsure_lookup rels rel, hmem, ?c1⟩
    intro hcnt
    have hpos : 0 < ((alookup rel rels).getD []).count tgtId :=
      List.count_pos_iff.mpr hmem
    omega
  · rw [if_neg (show ¬ tgtId ∈ (some ((alookup rel rels).getD [])).getD []
      from hmem)]
    refine ⟨(some ((alookup rel rels).getD [])).getD [] ++ [tgtId],
      alookup_dictSet_self _ _ _, ?m2, ?c2⟩
    case m2 => exact List.mem_append_right _ (List.mem_singleton.mpr rfl)
    case c2 =>
      intro _
      rw [List.count_append]
      have h0 : ((alookup rel rels).getD []).count tgtId = 0 :=
        List.count_eq_zero.mpr hmem
      rw [show ((some ((alookup rel rels).getD [])).getD [] : List String) =
        (alookup rel rels).getD [] from rfl, h0]
      simp

theorem updRels_idem (rels : List (String × List String))
    (tgtId rel : String) :
    updRels (updRels rels tgtId rel) tgtId rel = updRels rels tgtId rel := by
  obtain ⟨L, hL, hmem, -⟩ := updRels_lookup rels tgtId rel
  rw [show updRels (updRels rels tgtId rel) tgtId rel =
    (if tgtId ∈ (alookup rel (relsEnsure (updRels rels tgtId rel)
        rel)).getD []
     then relsEnsure (updRels rels tgtId rel) rel
     else dictSet rel ((alookup rel (relsEnsure (updRels rels tgtId rel)
        rel)).getD [] ++ [tgtId]) (relsEnsure (updRels rels tgtId rel) rel))
    from rfl]
  have hE : relsEnsure (updRels rels tgtId rel) rel = updRels rels tgtId rel := by
    rw [relsEnsure, if_pos (by rw [hL]; rfl)]
  rw [hE, hL, if_pos (show tgtId ∈ (some L).getD [] from hmem)]

theorem updMem_idem (src : Memory) (tgtId rel : String) :
    updMem (updMem src tgtId rel) tgtId rel = updMem src tgtId rel := by
  rw [show updMem (updMem src tgtId rel) tgtId rel =
    { updMem src tgtId rel with
        experience :=
          { (updMem src tgtId rel).experience with
              relationships :=
                updRels (updMem src tgtId rel).experience.relationships
                  tgtId rel } }
    from rfl]
  rw [show (updMem src tgtId rel).experience.relationships =
    updRels src.experience.relationships tgtId rel from rfl]
  rw [updRels_idem]
  rfl

/- ### Values stored in the semantic index along a trace -/

theorem alookup_dictSet_cases {α : Type} (k kd : String) (v : α)
    (l : List (String × α)) (x : α)
    (h : alookup k (dictSet kd v l) = some x) :
    (k = kd ∧ x = v) ∨ alookup k l = some x := by
  by_cases hk : kd = k
  · rw [← hk] at h
    rw [alookup_dictSet_self] at h
    exact .inl ⟨hk.symm, (Option.some_inj.mp h).symm⟩
  · rw [alookup_dictSet_other _ _ hk] at h
    exact .inr h

theorem trace_sem_val : ∀ (l : List RecordArgs) (s : MemState) (k : String)
    (x : Memory),
    alookup k (l.foldl applyRecord s).semantic_index = some x →
    x.experience.id = k ∨ alookup k s.semantic_index = some x
  | [], _, _, _, h => .inr h
  | a :: l, s, k, x, h => by
    rw [List.foldl_cons] at h
    rcases trace_sem_val l _ k x h with h1 | h1
    · exact .inl h1
    · rw [applyRecord_sem] at h1
      rcases alookup_dictSet_cases k a.id (mkMemory a) _ x h1 with ⟨hk, hx⟩ | h2
      · refine .inl ?e
        rw [hx, hk]
        rfl
      · exact .inr h2

theorem lookupAll_pairwise (sem : List (String × Memory))
    (R : String → String → Prop) (S : Memory → Memory → Prop)
    (tr : ∀ m1 m2 x y, R m1 m2 → alookup m1 sem = some x →
      alookup m2 sem = some y → S x y) :
    ∀ ids : List String, ids.Pairwise R →
    (∀ mid ∈ ids, (alookup mid sem).isSome = true) →
    ∃ mems, lookupAll sem ids = some mems ∧ mems.Pairwise S ∧
      ∀ m ∈ mems, ∃ mid ∈ ids, alookup mid sem = some m
  | [], _, _ => ⟨[], rfl, List.Pairwise.nil, by simp⟩
  | mid :: rest, hpw, hsome => by
    rw [List.pairwise_cons] at hpw
    obtain ⟨x, hx⟩ := Option.isSome_iff_exists.mp
      (hsome mid (List.mem_cons_self _ _))
    obtain ⟨mems, hm, hpwS, hcov⟩ := lookupAll_pairwise sem R S tr rest hpw.2
      (fun z hz => hsome z (List.mem_cons_of_mem mid hz))
    refine ⟨x :: mems, ?e, ?pw, ?cov⟩
    case e => rw [lookupAll, hx, Option.some_bind, hm]; rfl
    case pw =>
      rw [List.pairwise_cons]
      refine ⟨?hd, hpwS⟩
      intro y hy
      obtain ⟨mid2, hmid2, hy2⟩ := hcov y hy
      exact tr mid mid2 x y (hpw.1 mid2 hmid2) hx hy2
    case cov =>
      intro m hm2
      rcases List.mem_cons.mp hm2 with h | h
      · exact ⟨mid, List.mem_cons_self _ _, by rw [h]; exact hx⟩
      · obtain ⟨mid2, hm3, hl⟩ := hcov m h
        exact ⟨mid2, List.mem_cons_of_mem mid hm3, hl⟩

/- ### Concrete fixtures for witnesses and counterexamples -/

def argA : RecordArgs :=
  ⟨"action", .null, .null, [], 1, .null, "idA", "t1", "t1", [1]⟩

def argB : RecordArgs :=
  ⟨"percep", .null, .null, [], 2, .null, "idB", "t2", "t2", [1]⟩

def argC : RecordArgs :=
  ⟨"action", .null, .null, [], 1, .null, "idC", "t3", "t3", [1]⟩

/-- A second record with the same id as argA but different payload. -/
def argA2 : RecordArgs :=
  ⟨"thought", .bool true, .null, [], 2, .null, "idA", "t4", "t4", [2]⟩

def argD : RecordArgs :=
  ⟨"action", .null, .null, [], 1, .null, "idD", "t9", "t9", [1]⟩

/-- Same timestamp as argD, different id. -/
def argE : RecordArgs :=
  ⟨"action", .null, .null, [], 1, .null, "idE", "t9", "t9", [1]⟩

/-- A Memory whose content dict has an int key (legal in Python, where
content is duck-typed). -/
def memBad : Memory :=
  ⟨⟨"idX", "t0", "thought", .dict (.cons (.int 1) (.str "a") .nil),
    .null, [], 1, .null, []⟩, [1], "t0", 0, 0, 1⟩

/-- What comes back from storage for memBad: the int key was stringified
by json.dumps. -/
def memBadLoaded : Memory :=
  ⟨⟨"idX", "t0", "thought", .dict (.cons (.str "1") (.str "a") .nil),
    .null, [], 1, .null, []⟩, [1], "t0", 0, 0, 1⟩

def stDE : MemState :=
  ⟨[], [], [], [], [rowOfMemory (mkMemory argD), rowOfMemory (mkMemory argE)]⟩

def stED : MemState :=
  ⟨[], [], [], [], [rowOfMemory (mkMemory argE), rowOfMemory (mkMemory argD)]⟩

/- ### The claims -/

/-- C1: what record_experience actually does when the storage write
raises: the call propagates the raw storage exception (there is no
PersistenceError and no try/except in record_experience), and by then all
four in-memory indices have already been updated — the semantic map holds
the new memory, the temporal index gained the id at the front, the id sits
in the importance index, the type bucket gained the id — while storage is
unchanged, so index and storage diverge.  This refutes the roll-back
reading of the spec; the spec sentence holds only in its negation: the
operation is index-then-persist with no rollback. -/
theorem record_storage_failure_behavior (s : MemState) (a : RecordArgs) :
    record_experience s a false = .storageError (recordIndex s a) ∧
    (recordIndex s a).storage = s.storage ∧
    alookup a.id (recordIndex s a).semantic_index = some (mkMemory a) ∧
    (recordIndex s a).temporal_index = a.id :: s.temporal_index ∧
    a.id ∈ (recordIndex s a).importance_index ∧
    (alookup a.type (recordIndex s a).type_index).getD [] =
      a.id :: (alookup a.type s.type_index).getD [] := by
  refine ⟨rfl, rfl, alookup_dictSet_self _ _ _, rfl, ?imem, ?bucket⟩
  case imem => exact (mem_insertDescBy _ _ _ _ _).mpr (.inl rfl)
  case bucket =>
    rw [show (recordIndex s a).type_index =
      typeBucketInsert s.type_index a.type a.id from rfl,
      typeBucketInsert_self]
    rfl

/-- C1 counterexample: a concrete failing store on a fresh system leaves
the indices populated (different from their pre-call empty values) while
storage is still empty — the spec's required rollback does not happen. -/
theorem record_storage_failure_counterexample :
    record_experience initState argA false =
      .storageError (recordIndex initState argA) ∧
    (recordIndex initState argA).semantic_index ≠ initState.semantic_index ∧
    (recordIndex initState argA).temporal_index ≠ initState.temporal_index ∧
    (recordIndex initState argA).importance_index ≠
      initState.importance_index ∧
    (recordIndex initState argA).type_index ≠ initState.type_index ∧
    (recordIndex initState argA).storage = initState.storage := by
  decide

/-- C2: recording an experience whose id is already in the semantic index
does not fail: the call returns normally (there is no DuplicateIdError
anywhere in the code), the semantic map entry is silently overwritten in
place (key set unchanged, value replaced), and the temporal index gains a
second copy of the id. -/
theorem duplicate_id_overwrites (s : MemState) (a : RecordArgs) (m : Memory)
    (hm : alookup a.id s.semantic_index = some m)
    (ht : a.id ∈ s.temporal_index) :
    ∃ s2, record_experience s a true = .ok s2 (mkExperience a) ∧
      s2.semantic_index.map Prod.fst = s.semantic_index.map Prod.fst ∧
      alookup a.id s2.semantic_index = some (mkMemory a) ∧
      s2.temporal_index = a.id :: s.temporal_index ∧
      1 < s2.temporal_index.count a.id := by
  refine ⟨_, rfl, ?keys, ?val, rfl, ?cnt⟩
  case keys =>
    exact dictSet_keys a.id (mkMemory a) s.semantic_index
      (by rw [hm]; rfl)
  case val => exact alookup_dictSet_self _ _ _
  case cnt =>
    show 1 < (a.id :: s.temporal_index : List String).count a.id
    rw [show ((a.id :: s.temporal_index : List String).count a.id) =
      s.temporal_index.count a.id + 1 from List.count_cons_self _ _]
    have hpos : 0 < s.temporal_index.count a.id := List.count_pos_iff.mpr ht
    omega

/-- C2 witness: re-recording id idA on a system that already holds it. -/
theorem duplicate_id_overwrites_witness :
    alookup argA2.id (runTrace [argA]).semantic_index =
      some (mkMemory argA) ∧
    argA2.id ∈ (runTrace [argA]).temporal_index ∧
    (∃ s2, record_experience (runTrace [argA]) argA2 true =
        .ok s2 (mkExperience argA2) ∧
      s2.semantic_index.map Prod.fst =
        (runTrace [argA]).semantic_index.map Prod.fst ∧
      alookup argA2.id s2.semantic_index = some (mkMemory argA2) ∧
      s2.temporal_index = argA2.id :: (runTrace [argA]).temporal_index ∧
      1 < s2.temporal_index.count argA2.id) :=
  ⟨by decide, by decide,
    duplicate_id_overwrites (runTrace [argA]) argA2 (mkMemory argA)
      (by decide) (by decide)⟩

/-- C2 counterexample: two records with the same id "idA" leave one
silently overwritten semantic entry (holding the second memory) and a
duplicated temporal/importance index — no DuplicateIdError, no rejection
of the insert. -/
theorem duplicate_id_counterexample :
    (runTrace [argA, argA2]).semantic_index = [("idA", mkMemory argA2)] ∧
    (runTrace [argA, argA2]).temporal_index = ["idA", "idA"] ∧
    (runTrace [argA, argA2]).importance_index = ["idA", "idA"] := by
  decide

/-- C4: the fallback embedding is not deterministic across process
instances.  The seed is hash(text); CPython's str hash is siphash13 keyed
by the per-process PYTHONHASHSEED-derived secret, so two interpreter runs
hash "a" to different values (shown here for the PYTHONHASHSEED=0 and
PYTHONHASHSEED=1 keys, values validated against CPython 3.11).  Moreover
numpy.random.RandomState requires 0 <= seed < 2 ** 32, so in both
processes _generate_simple_embedding("a") does not even produce a vector:
it raises ValueError (the hash is out of range — negative under seed 1),
modelled by simpleEmbeddingSeed = none. -/
theorem fallback_embedding_process_dependent :
    pythonStrHash 0 0 "a" = 4644417185603328019 ∧
    pythonStrHash 12598376723466036009 16999324916296290386 "a" =
      -3012895188637184397 ∧
    pythonStrHash 0 0 "a" ≠
      pythonStrHash 12598376723466036009 16999324916296290386 "a" ∧
    simpleEmbeddingSeed 0 0 "a" = none ∧
    simpleEmbeddingSeed 12598376723466036009 16999324916296290386 "a" =
      none := by
  decide

/-- C8: the storage round trip on the JSON-clean domain: storing a Memory
whose payloads satisfy memOk (string dict keys, pairwise-distinct keys,
decimal floats) and loading everything back yields exactly the original
Memory appended after the other surviving rows (INSERT OR REPLACE moves
the row to the end of the scan order). -/
theorem storage_round_trip (rows : List MemRow) (m : Memory)
    (h : memOk m = true) :
    load_all_memories (store_memory rows m) =
      (load_all_memories
        (rows.filter (fun r => !(r.id = m.experience.id : Bool)))).map
        (fun ms => ms ++ [m]) := by
  rw [load_all_memories, load_all_memories, store_memory, decodeAll_append]
  have hdec : decodeAll [rowOfMemory m] = some [m] := by
    rw [decodeAll, memoryOfRow_rowOfMemory m h, Option.some_bind]
    rfl
  rw [hdec]
  cases decodeAll (rows.filter (fun r => !(r.id = m.experience.id : Bool)))
  · rfl
  · rfl

/-- C8 witness: the round trip at a concrete JSON-clean memory. -/
theorem storage_round_trip_witness :
    memOk (mkMemory argA) = true ∧
    load_all_memories (store_memory [] (mkMemory argA)) =
      (load_all_memories
        (([] : List MemRow).filter
          (fun r => !(r.id = (mkMemory argA).experience.id : Bool)))).map
        (fun ms => ms ++ [mkMemory argA]) :=
  ⟨by decide, storage_round_trip [] (mkMemory argA) (by decide)⟩

/-- C8 counterexample: a Memory whose content dict has the int key 1 is
not reproduced by the round trip — json.dumps stringifies the key, so the
reloaded Memory differs from the original in its content field, refuting
the unrestricted field-for-field claim. -/
theorem storage_round_trip_counterexample :
    load_all_memories (store_memory [] memBad) = some [memBadLoaded] ∧
    memBadLoaded ≠ memBad := by
  decide

theorem memState_ext {s1 s2 : MemState}
    (h1 : s1.semantic_index = s2.semantic_index)
    (h2 : s1.temporal_index = s2.temporal_index)
    (h3 : s1.importance_index = s2.importance_index)
    (h4 : s1.type_index = s2.type_index)
    (h5 : s1.storage = s2.storage) : s1 = s2 := by
  cases s1
  cases s2
  congr 1

/-- C3: what the similarity computation actually does on a zero-magnitude
vector: np.dot/(norm*norm) is 0.0/0.0 = nan — no DegenerateVectorError
exists and nothing is raised.  Consequently recall_similar with a
zero-embedding query succeeds and returns the first limit memories in
semantic-index insertion order, because every comparison against a nan
sort key is false and the stable sort leaves the list untouched. -/
theorem similarity_zero_magnitude :
    (∀ v1 v2 : List Rat, sumsq v1 = 0 ∨ sumsq v2 = 0 →
      calculate_similarity v1 v2 = SimResult.nan) ∧
    (∀ (s : MemState) (q : List Rat) (limit : Nat) (nowTs : String),
      sumsq q = 0 →
      (recall_similar s q limit nowTs).1 =
        (s.semantic_index.map (fun p => p.2)).take limit) :=
  ⟨calculate_similarity_nan, recall_similar_zero_query⟩

/-- C3 witness: the zero-magnitude behaviour at concrete vectors and a
concrete two-memory store. -/
theorem similarity_zero_magnitude_witness :
    (sumsq [0] = 0 ∨ sumsq [1] = 0) ∧
    calculate_similarity [0] [1] = SimResult.nan ∧
    sumsq [0, 0] = 0 ∧
    (recall_similar (runTrace [argA, argB]) [0, 0] 1 "now").1 =
      [mkMemory argA] :=
  ⟨Or.inl (by decide),
   similarity_zero_magnitude.1 [0] [1] (Or.inl (by decide)),
   by decide,
   by
     rw [similarity_zero_magnitude.2 (runTrace [argA, argB]) [0, 0] 1 "now"
       (by decide)]
     decide⟩

/-- C3 counterexample: the spec says a zero-magnitude vector makes the
similarity computation fail with DegenerateVectorError and makes
recall_similar fail; in fact the similarity is nan and recall_similar
returns a normal non-empty ranking. -/
theorem similarity_zero_magnitude_counterexample :
    calculate_similarity [0, 0] [1, 2] = SimResult.nan ∧
    (recall_similar (runTrace [argA]) [0] 1 "now").1 = [mkMemory argA] := by
  decide

/-- C9: connect_memories is idempotent.  From any state in which the
source relationship list holds the target at most once (true in every
reachable state), one connect makes the target appear exactly once under
the relationship, and a second identical connect returns the very same
state — semantic index and storage included (INSERT OR REPLACE of an
already-final row is a no-op). -/
theorem connect_idempotent (s : MemState) (srcId tgtId rel : String)
    (sm tm : Memory)
    (hs : alookup srcId s.semantic_index = some sm)
    (ht : alookup tgtId s.semantic_index = some tm)
    (hcnt : ((alookup rel sm.experience.relationships).getD
      []).count tgtId ≤ 1) :
    ∃ s1, connect_memories s srcId tgtId rel = some s1 ∧
      connect_memories s1 srcId tgtId rel = some s1 ∧
      ∃ sm1, alookup srcId s1.semantic_index = some sm1 ∧
        ((alookup rel sm1.experience.relationships).getD
          []).count tgtId = 1 := by
  refine ⟨connectResult s sm srcId tgtId rel, ?c1, ?c2, ?c3⟩
  case c1 =>
    rw [connect_memories, hs, Option.some_bind, ht, Option.some_bind]
  case c2 =>
    have hs1 : alookup srcId (connectResult s sm srcId tgtId
        rel).semantic_index = some (updMem sm tgtId rel) :=
      alookup_dictSet_self _ _ _
    obtain ⟨tv, htv⟩ : ∃ tv, alookup tgtId (connectResult s sm srcId tgtId
        rel).semantic_index = some tv := by
      by_cases h : tgtId = srcId
      · exact ⟨updMem sm tgtId rel, by nth_rewrite 1 [h]; exact hs1⟩
      · refine ⟨tm, ?o⟩
        show alookup tgtId (dictSet srcId (updMem sm tgtId rel)
          s.semantic_index) = some tm
        rw [alookup_dictSet_other _ _ (fun he => h he.symm)]
        exact ht
    rw [connect_memories, hs1, Option.some_bind, htv, Option.some_bind]
    refine congrArg some (memState_ext ?e1 rfl rfl rfl ?e5)
    case e1 =>
      show dictSet srcId (updMem (updMem sm tgtId rel) tgtId rel)
        (dictSet srcId (updMem sm tgtId rel) s.semantic_index) =
        dictSet srcId (updMem sm tgtId rel) s.semantic_index
      rw [updMem_idem, dictSet_dictSet]
    case e5 =>
      show store_memory (store_memory s.storage (updMem sm tgtId rel))
        (updMem (updMem sm tgtId rel) tgtId rel) =
        store_memory s.storage (updMem sm tgtId rel)
      rw [updMem_idem, store_store]
  case c3 =>
    refine ⟨updMem sm tgtId rel, alookup_dictSet_self _ _ _, ?cn⟩
    obtain ⟨L, hL, -, hc⟩ := updRels_lookup sm.experience.relationships
      tgtId rel
    rw [show (updMem sm tgtId rel).experience.relationships =
      updRels sm.experience.relationships tgtId rel from rfl, hL]
    exact hc hcnt

/-- C9 witness: connecting idA to idB twice on a concrete two-memory
system. -/
theorem connect_idempotent_witness :
    alookup "idA" (runTrace [argA, argB]).semantic_index =
      some (mkMemory argA) ∧
    alookup "idB" (runTrace [argA, argB]).semantic_index =
      some (mkMemory argB) ∧
    (((alookup "caused"
      (mkMemory argA).experience.relationships).getD []).count "idB" ≤ 1) ∧
    (∃ s1, connect_memories (runTrace [argA, argB]) "idA" "idB" "caused" =
        some s1 ∧
      connect_memories s1 "idA" "idB" "caused" = some s1 ∧
      ∃ sm1, alookup "idA" s1.semantic_index = some sm1 ∧
        ((alookup "caused" sm1.experience.relationships).getD
          []).count "idB" = 1) :=
  ⟨by decide, by decide, by decide,
    connect_idempotent (runTrace [argA, argB]) "idA" "idB" "caused"
      (mkMemory argA) (mkMemory argB) (by decide) (by decide) (by decide)⟩

/-- C10: the frame property of a successful connect: the temporal,
importance and type indices are untouched, the semantic key set is
unchanged, every memory other than the source is unchanged, and the
source memory changes only in its experience's relationships map — every
other Experience and Memory field is preserved. -/
theorem connect_frame_property (s : MemState) (srcId tgtId rel : String)
    (sm tm : Memory)
    (hs : alookup srcId s.semantic_index = some sm)
    (ht : alookup tgtId s.semantic_index = some tm) :
    ∃ s1, connect_memories s srcId tgtId rel = some s1 ∧
      s1.temporal_index = s.temporal_index ∧
      s1.importance_index = s.importance_index ∧
      s1.type_index = s.type_index ∧
      s1.semantic_index.map Prod.fst = s.semantic_index.map Prod.fst ∧
      (∀ k, k ≠ srcId →
        alookup k s1.semantic_index = alookup k s.semantic_index) ∧
      alookup srcId s1.semantic_index = some (updMem sm tgtId rel) ∧
      (updMem sm tgtId rel).experience.id = sm.experience.id ∧
      (updMem sm tgtId rel).experience.timestamp = sm.experience.timestamp ∧
      (updMem sm tgtId rel).experience.type = sm.experience.type ∧
      (updMem sm tgtId rel).experience.content = sm.experience.content ∧
      (updMem sm tgtId rel).experience.metadata = sm.experience.metadata ∧
      (updMem sm tgtId rel).experience.tags = sm.experience.tags ∧
      (updMem sm tgtId rel).experience.importance =
        sm.experience.importance ∧
      (updMem sm tgtId rel).experience.context = sm.experience.context ∧
      (updMem sm tgtId rel).embedding = sm.embedding ∧
      (updMem sm tgtId rel).last_accessed = sm.last_accessed ∧
      (updMem sm tgtId rel).access_count = sm.access_count ∧
      (updMem sm tgtId rel).emotional_valence = sm.emotional_valence ∧
      (updMem sm tgtId rel).confidence = sm.confidence := by
  refine ⟨connectResult s sm srcId tgtId rel, ?conn, rfl, rfl, rfl, ?keys,
    ?others, alookup_dictSet_self _ _ _, rfl, rfl, rfl, rfl, rfl, rfl, rfl,
    rfl, rfl, rfl, rfl, rfl, rfl⟩
  case conn =>
    rw [connect_memories, hs, Option.some_bind, ht, Option.some_bind]
  case keys =>
    exact dictSet_keys srcId (updMem sm tgtId rel) s.semantic_index
      (by rw [hs]; rfl)
  case others =>
    intro k hk
    show alookup k (dictSet srcId (updMem sm tgtId rel) s.semantic_index) =
      alookup k s.semantic_index
    exact alookup_dictSet_other _ _ (fun he => hk he.symm)

/-- C10 witness: the frame property at a concrete connect of idA to idB. -/
theorem connect_frame_property_witness :
    alookup "idA" (runTrace [argA, argB]).semantic_index =
      some (mkMemory argA) ∧
    alookup "idB" (runTrace [argA, argB]).semantic_index =
      some (mkMemory argB) ∧
    (∃ s1, connect_memories (runTrace [argA, argB]) "idA" "idB" "caused" =
        some s1 ∧
      s1.temporal_index = (runTrace [argA, argB]).temporal_index ∧
      s1.importance_index = (runTrace [argA, argB]).importance_index ∧
      s1.type_index = (runTrace [argA, argB]).type_index ∧
      s1.semantic_index.map Prod.fst =
        (runTrace [argA, argB]).semantic_index.map Prod.fst ∧
      (∀ k, k ≠ "idA" → alookup k s1.semantic_index =
        alookup k (runTrace [argA, argB]).semantic_index) ∧
      alookup "idA" s1.semantic_index =
        some (updMem (mkMemory argA) "idB" "caused") ∧
      (updMem (mkMemory argA) "idB" "caused").experience.id =
        (mkMemory argA).experience.id ∧
      (updMem (mkMemory argA) "idB" "caused").experience.timestamp =
        (mkMemory argA).experience.timestamp ∧
      (updMem (mkMemory argA) "idB" "caused").experience.type =
        (mkMemory argA).experience.type ∧
      (updMem (mkMemory argA) "idB" "caused").experience.content =
        (mkMemory argA).experience.content ∧
      (updMem (mkMemory argA) "idB" "caused").experience.metadata =
        (mkMemory argA).experience.metadata ∧
      (updMem (mkMemory argA) "idB" "caused").experience.tags =
        (mkMemory argA).experience.tags ∧
      (updMem (mkMemory argA) "idB" "caused").experience.importance =
        (mkMemory argA).experience.importance ∧
      (updMem (mkMemory argA) "idB" "caused").experience.context =
        (mkMemory argA).experience.context ∧
      (updMem (mkMemory argA) "idB" "caused").embedding =
        (mkMemory argA).embedding ∧
      (updMem (mkMemory argA) "idB" "caused").last_accessed =
        (mkMemory argA).last_accessed ∧
      (updMem (mkMemory argA) "idB" "caused").access_count =
        (mkMemory argA).access_count ∧
      (updMem (mkMemory argA) "idB" "caused").emotional_valence =
        (mkMemory argA).emotional_valence ∧
      (updMem (mkMemory argA) "idB" "caused").confidence =
        (mkMemory argA).confidence) :=
  ⟨by decide, by decide,
    connect_frame_property (runTrace [argA, argB]) "idA" "idB" "caused"
      (mkMemory argA) (mkMemory argB) (by decide) (by decide)⟩

/-- C5: what recall_recent actually returns after a trace of records with
distinct ids and non-decreasing timestamps.  With a non-empty type filter
it returns the most recent (reverse record order) experiences of that
type, truncated to the limit — all of them when fewer exist, and the
empty list for an unknown type; with no filter, the most recent overall;
those results are non-increasing in timestamp.  But the empty-string
filter is NOT honoured: Python's `if type:` treats "" as falsy, so
recall_recent(k, type="") silently returns the unfiltered temporal
result instead of the entries of type "" — refuting the for-every-filter
reading of the claim. -/
theorem recall_recent_characterization (l : List RecordArgs) (k : Nat)
    (t nowTs : String)
    (hnd : (l.map (fun a => a.id)).Nodup)
    (hts : (l.map (fun a => a.timestamp)).Pairwise
      (fun x y => pyStrLe x y = true))
    (hne : t ≠ "") :
    (recall_recent (runTrace l) k (some t) nowTs).map Prod.fst =
      some ((((l.filter (fun a => decide (a.type = t))).reverse).take k).map
        mkMemory) ∧
    (recall_recent (runTrace l) k none nowTs).map Prod.fst =
      some (((l.reverse).take k).map mkMemory) ∧
    recall_recent (runTrace l) k (some "") nowTs =
      recall_recent (runTrace l) k none nowTs ∧
    ((((l.filter (fun a => decide (a.type = t))).reverse).take k).map
      mkMemory).Pairwise (fun m1 m2 =>
        pyStrLe m2.experience.timestamp m1.experience.timestamp = true) := by
  have hbucket : (alookup t (runTrace l).type_index).getD [] =
      ((l.filter (fun a => decide (a.type = t))).map
        (fun a => a.id)).reverse := by
    have h := trace_bucket l initState t
    rw [show (alookup t initState.type_index).getD [] = ([] : List String)
      from rfl, List.append_nil] at h
    exact h
  have htemp : (runTrace l).temporal_index =
      (l.map (fun a => a.id)).reverse := by
    have h := trace_temporal l initState
    rw [show initState.temporal_index = ([] : List String) from rfl,
      List.append_nil] at h
    exact h
  have hids : ((alookup t (runTrace l).type_index).getD []).take k =
      (((l.filter (fun a => decide (a.type = t))).reverse).take k).map
        (fun a => a.id) := by
    rw [hbucket, ← List.map_reverse, ← List.map_take]
  have hids2 : (runTrace l).temporal_index.take k =
      ((l.reverse).take k).map (fun a => a.id) := by
    rw [htemp, ← List.map_reverse, ← List.map_take]
  have hlook : lookupAll (runTrace l).semantic_index
      ((((l.filter (fun a => decide (a.type = t))).reverse).take k).map
        (fun a => a.id)) =
      some ((((l.filter (fun a => decide (a.type = t))).reverse).take k).map
        mkMemory) := by
    refine lookupAll_map_id _ _ ?mem
    intro a ha
    have ha2 : a ∈ l :=
      List.mem_of_mem_filter
        (List.mem_reverse.mp (List.take_subset k _ ha))
    exact trace_sem_lookup l initState hnd a ha2
  have hlook2 : lookupAll (runTrace l).semantic_index
      (((l.reverse).take k).map (fun a => a.id)) =
      some (((l.reverse).take k).map mkMemory) := by
    refine lookupAll_map_id _ _ ?mem2
    intro a ha
    exact trace_sem_lookup l initState hnd a
      (List.mem_reverse.mp (List.take_subset k _ ha))
  refine ⟨?p1, ?p2, ?p3, ?p4⟩
  case p1 =>
    simp only [recall_recent]
    rw [if_neg hne, hids, hlook]
    rfl
  case p2 =>
    simp only [recall_recent]
    rw [hids2, hlook2]
    rfl
  case p3 => rfl
  case p4 =>
    have h1 : l.Pairwise
        (fun a b => pyStrLe a.timestamp b.timestamp = true) :=
      List.pairwise_map.mp hts
    have h2 : (l.filter (fun a => decide (a.type = t))).Pairwise
        (fun a b => pyStrLe a.timestamp b.timestamp = true) :=
      h1.sublist (List.filter_sublist l)
    have h3 : ((l.filter (fun a => decide (a.type = t))).reverse).Pairwise
        (fun a b => pyStrLe b.timestamp a.timestamp = true) :=
      List.pairwise_reverse.mpr h2
    have h4 : ((l.filter (fun a =>
        decide (a.type = t))).reverse.take k).Pairwise
        (fun a b => pyStrLe b.timestamp a.timestamp = true) :=
      h3.sublist (List.take_sublist k _)
    exact List.pairwise_map.mpr h4

/-- C5 witness: three records (action, percep, action) with increasing
timestamps; the two most recent "action" entries come back newest
first. -/
theorem recall_recent_characterization_witness :
    (([argA, argB, argC].map (fun a => a.id)).Nodup) ∧
    (recall_recent (runTrace [argA, argB, argC]) 2 (some "action")
      "now").map Prod.fst = some [mkMemory argC, mkMemory argA] :=
  ⟨by decide, by
    rw [(recall_recent_characterization [argA, argB, argC] 2 "action" "now"
      (by decide) (by decide) (by decide)).1]
    decide⟩

/-- C5 counterexample: with the filter type="" the call does not return
the entries of type "" (there are none — the spec's reading demands the
empty sequence): it returns the unfiltered most-recent memory, whose type
is "action".  A genuinely unknown non-empty type does yield []. -/
theorem recall_recent_empty_type_counterexample :
    (recall_recent (runTrace [argA]) 1 (some "") "now").map Prod.fst =
      some [mkMemory argA] ∧
    (mkMemory argA).experience.type ≠ "" ∧
    (recall_recent (runTrace [argA]) 1 (some "zzz") "now").map Prod.fst =
      some [] := by
  decide

/-- C6: after any trace of records with distinct ids, recall_important
returns (without error) a list whose importances are non-increasing, and
in which any two entries of equal importance occur in record order (their
ids form a sublist of the trace ids): the scan-and-insert of
_insert_sorted_by_importance places a new entry behind all existing
entries of the same importance, i.e. the index is a stable descending
sort of the record sequence. -/
theorem recall_important_sorted (l : List RecordArgs) (k : Nat)
    (nowTs : String) (hnd : (l.map (fun a => a.id)).Nodup) :
    ∃ mems s2, recall_important (runTrace l) k nowTs = some (mems, s2) ∧
      mems.Pairwise (fun m1 m2 =>
        m2.experience.importance ≤ m1.experience.importance ∧
        (m1.experience.importance = m2.experience.importance →
          [m1.experience.id, m2.experience.id].Sublist
            (l.map (fun a => a.id)))) := by
  have hpwIdx := trace_imp_sorted l hnd
  have hpwTake := hpwIdx.sublist
    (List.take_sublist k (runTrace l).importance_index)
  have hsome : ∀ mid ∈ (runTrace l).importance_index.take k,
      (alookup mid (runTrace l).semantic_index).isSome = true := by
    intro mid hm
    have hm2 : mid ∈ (runTrace l).importance_index :=
      List.take_subset k _ hm
    rcases trace_imp_members l initState mid hm2 with h | h
    · rcases List.mem_map.mp h with ⟨a, ha, haid⟩
      rw [← haid, runTrace, trace_sem_lookup l initState hnd a ha]
      rfl
    · exact absurd h (List.not_mem_nil mid)
  have tr : ∀ m1 m2 x y,
      (decide (impOf (runTrace l).semantic_index m1 <
        impOf (runTrace l).semantic_index m2) = false ∧
       (impOf (runTrace l).semantic_index m1 =
        impOf (runTrace l).semantic_index m2 →
        [m1, m2].Sublist (l.map (fun a => a.id)))) →
      alookup m1 (runTrace l).semantic_index = some x →
      alookup m2 (runTrace l).semantic_index = some y →
      (y.experience.importance ≤ x.experience.importance ∧
       (x.experience.importance = y.experience.importance →
        [x.experience.id, y.experience.id].Sublist
          (l.map (fun a => a.id)))) := by
    intro m1 m2 x y hr hx hy
    have hx2 : impOf (runTrace l).semantic_index m1 =
        x.experience.importance := by rw [impOf, hx]; rfl
    have hy2 : impOf (runTrace l).semantic_index m2 =
        y.experience.importance := by rw [impOf, hy]; rfl
    have hxid : x.experience.id = m1 := by
      rcases trace_sem_val l initState m1 x hx with h | h
      · exact h
      · exact Option.noConfusion
          (show (none : Option Memory) = some x from h)
    have hyid : y.experience.id = m2 := by
      rcases trace_sem_val l initState m2 y hy with h | h
      · exact h
      · exact Option.noConfusion
          (show (none : Option Memory) = some y from h)
    refine ⟨?le, ?st⟩
    case le =>
      have h1 := of_decide_eq_false hr.1
      rw [hx2, hy2] at h1
      exact not_lt.mp h1
    case st =>
      intro he
      have heq : impOf (runTrace l).semantic_index m1 =
          impOf (runTrace l).semantic_index m2 := by
        rw [hx2, hy2, he]
      have hsub := hr.2 heq
      rw [hxid, hyid]
      exact hsub
  obtain ⟨mems, hm, hpwS, -⟩ :=
    lookupAll_pairwise (runTrace l).semantic_index _ _ tr
      ((runTrace l).importance_index.take k) hpwTake hsome
  refine ⟨mems, { runTrace l with
    storage := mems.foldl (fun rows m =>
      update_access rows m.experience.id nowTs) (runTrace l).storage },
    ?eq, hpwS⟩
  case eq =>
    simp only [recall_important]
    rw [hm]
    rfl

/-- C6 witness: records with importances 1, 2, 1; the top-2 recall is the
importance-2 entry first, then the earlier of the two importance-1
entries. -/
theorem recall_important_sorted_witness :
    (([argA, argB, argC].map (fun a => a.id)).Nodup) ∧
    (∃ mems s2,
      recall_important (runTrace [argA, argB, argC]) 2 "now" =
        some (mems, s2) ∧
      mems.Pairwise (fun m1 m2 =>
        m2.experience.importance ≤ m1.experience.importance ∧
        (m1.experience.importance = m2.experience.importance →
          [m1.experience.id, m2.experience.id].Sublist
            ([argA, argB, argC].map (fun a => a.id))))) :=
  ⟨by decide,
    recall_important_sorted [argA, argB, argC] 2 "now" (by decide)⟩

/-- C7: what the rebuild actually guarantees.  After load_memories over
any decodable storage with distinct ids, the temporal index is a
permutation of the stored ids, sorted by timestamp descending; but ties
are broken only by the stable sort's input order, i.e. by the order in
which storage supplied the records (any two equal-timestamp ids occur in
storage scan order) — there is no id tie-break anywhere in the code, so
the rebuilt ordering is NOT independent of the storage order. -/
theorem load_rebuild_order (s : MemState) (mems : List Memory)
    (hdec : decodeAll s.storage = some mems)
    (hnd : (mems.map (fun m => m.experience.id)).Nodup) :
    ∃ s1, load_memories s = some s1 ∧
      s1.temporal_index.Perm (mems.map (fun m => m.experience.id)) ∧
      (∀ m ∈ mems, alookup m.experience.id s1.semantic_index = some m) ∧
      s1.temporal_index.Pairwise (fun m1 m2 =>
        pyStrLt (tsOf s1.semantic_index m1) (tsOf s1.semantic_index m2) =
          false ∧
        (tsOf s1.semantic_index m1 = tsOf s1.semantic_index m2 →
          [m1, m2].Sublist (mems.map (fun m => m.experience.id)))) := by
  have hinput : (mems.foldl loadStep (clearIndices s)).temporal_index =
      mems.map (fun m => m.experience.id) := by
    have h := load_temporal mems (clearIndices s)
    rw [show (clearIndices s).temporal_index = ([] : List String) from rfl,
      List.nil_append] at h
    exact h
  refine ⟨rebuildState s mems, ?conn, ?perm, ?lk, ?pw⟩
  case conn =>
    rw [load_memories, load_all_memories, hdec, Option.map_some']
  case perm =>
    show (pySortDesc
      (tsOf (mems.foldl loadStep (clearIndices s)).semantic_index) pyStrLt
      (mems.foldl loadStep (clearIndices s)).temporal_index).Perm
      (mems.map (fun m => m.experience.id))
    rw [hinput]
    exact pySortDesc_perm _ _ _
  case lk =>
    intro m hm
    show alookup m.experience.id
      (mems.foldl loadStep (clearIndices s)).semantic_index = some m
    exact load_sem_lookup mems (clearIndices s) hnd m hm
  case pw =>
    have hA : ∀ a b : String, pyStrLt a b = true → pyStrLt b a = false :=
      fun a b h => pyStrLt_asymm h
    have hT : ∀ a b c : String, pyStrLt a b = true → pyStrLt b c = true →
        pyStrLt a c = true :=
      fun a b c h1 h2 => pyStrLt_trans h1 h2
    show (pySortDesc
      (tsOf (mems.foldl loadStep (clearIndices s)).semantic_index) pyStrLt
      (mems.foldl loadStep (clearIndices s)).temporal_index).Pairwise
      (fun m1 m2 =>
        pyStrLt
          (tsOf (mems.foldl loadStep (clearIndices s)).semantic_index m1)
          (tsOf (mems.foldl loadStep (clearIndices s)).semantic_index m2) =
          false ∧
        (tsOf (mems.foldl loadStep (clearIndices s)).semantic_index m1 =
          tsOf (mems.foldl loadStep (clearIndices s)).semantic_index m2 →
          [m1, m2].Sublist (mems.map (fun m => m.experience.id))))
    rw [hinput]
    exact pySortDesc_pairwise _ _ hA hT _

/-- C7 witness: loading a two-row storage with distinct ids. -/
theorem load_rebuild_order_witness :
    decodeAll stDE.storage = some [mkMemory argD, mkMemory argE] ∧
    (([mkMemory argD, mkMemory argE].map
      (fun m => m.experience.id)).Nodup) ∧
    (∃ s1, load_memories stDE = some s1 ∧
      s1.temporal_index.Perm ([mkMemory argD, mkMemory argE].map
        (fun m => m.experience.id)) ∧
      (∀ m ∈ [mkMemory argD, mkMemory argE],
        alookup m.experience.id s1.semantic_index = some m) ∧
      s1.temporal_index.Pairwise (fun m1 m2 =>
        pyStrLt (tsOf s1.semantic_index m1) (tsOf s1.semantic_index m2) =
          false ∧
        (tsOf s1.semantic_index m1 = tsOf s1.semantic_index m2 →
          [m1, m2].Sublist ([mkMemory argD, mkMemory argE].map
            (fun m => m.experience.id))))) :=
  ⟨by decide, by decide,
    load_rebuild_order stDE [mkMemory argD, mkMemory argE]
      (by decide) (by decide)⟩

/-- C7 counterexample: the same two memories (equal timestamps "t9",
distinct ids) supplied by storage in the two possible orders rebuild to
two different temporal indices — the rebuilt ordering depends on the
storage order, and there is no id tie-break making it canonical. -/
theorem load_rebuild_order_counterexample :
    stDE.storage.Perm stED.storage ∧
    (load_memories stDE).map (fun s => s.temporal_index) =
      some ["idD", "idE"] ∧
    (load_memories stED).map (fun s => s.temporal_index) =
      some ["idE", "idD"] := by
  refine ⟨?p, by decide, by decide⟩
  case p => exact List.Perm.swap _ _ _

end BasiliskMemory
